import Mathlib

/-!
Verification development for the block-based internal-link insertion engine
of the SocialAgent repository.

The TypeScript sources are shallowly embedded as Lean definitions:

* pure string manipulation (`normalizeWhitespace`, `escapeHtml`,
  `markdownLinkToHtml`, `tokenize`, the LCS diff mask, the anchor filters,
  `pickBestBlock`, `ensureSingleMarkdownLink`, `computeMaxLinks`) is
  translated function-by-function from
  `src/use-case/inlinks/apply-edits.ts` and `src/use-case/extract-content.ts`;
  JavaScript strings are modelled as `String`/`List Char` and the regular
  expressions used by the code are unfolded into equivalent deterministic
  scanners;
* JavaScript numbers are modelled as `ℚ`/`ℤ` where the code only does
  exact arithmetic (word counts, link budgets) and as `ℝ` for the embedding
  similarity arithmetic (`cosineSimilarity`);
* external effects (the LLM call plus JSON parsing/validation, the
  embedding service, the DOM provided by jsdom, the network) are modelled
  as explicit oracle parameters, so that theorems quantify over every
  possible behaviour of those collaborators;
* thrown exceptions are modelled with `Option`/`Except`.
-/

namespace SocialAgent

/-! ### JavaScript character and string primitives -/

/-- Membership in the JavaScript regular-expression class `\s`
(whitespace, including NBSP and the Unicode space separators). -/
def jsIsSpace (c : Char) : Bool :=
  let n := c.toNat
  decide (9 ≤ n ∧ n ≤ 13) || decide (n = 32) || decide (n = 160) ||
  decide (n = 5760) || decide (8192 ≤ n ∧ n ≤ 8202) || decide (n = 8232) ||
  decide (n = 8233) || decide (n = 8239) || decide (n = 8287) ||
  decide (n = 12288) || decide (n = 65279)

/-- JavaScript `String.prototype.toLowerCase` restricted to the Basic Latin
and Latin-1 ranges (ASCII letters plus the accented letters used by the
source's token alphabet). -/
def jsToLower (c : Char) : Char :=
  let n := c.toNat
  if 65 ≤ n ∧ n ≤ 90 then Char.ofNat (n + 32)
  else if 192 ≤ n ∧ n ≤ 222 ∧ n ≠ 215 then Char.ofNat (n + 32)
  else c

/-- Drop leading JavaScript whitespace. -/
def jsTrimL : List Char → List Char
  | [] => []
  | c :: cs => if jsIsSpace c then jsTrimL cs else c :: cs

/-- JavaScript `String.prototype.trim` on character lists. -/
def jsTrim (l : List Char) : List Char :=
  (jsTrimL (jsTrimL l.reverse).reverse)

/-- JavaScript `String.prototype.trim` on strings. -/
def jsTrimS (s : String) : String := ⟨jsTrim s.data⟩

/-- Replace every maximal run of JavaScript whitespace by a single space
(the effect of `.replace(/\s+/g, " ")`).  The flag records whether the
previous character was whitespace. -/
def collapseWsAux : Bool → List Char → List Char
  | _, [] => []
  | prevWs, c :: cs =>
    if jsIsSpace c then
      if prevWs then collapseWsAux true cs else ' ' :: collapseWsAux true cs
    else c :: collapseWsAux false cs

/-- The effect of `.replace(/\s+/g, " ")`. -/
def collapseWs (l : List Char) : List Char := collapseWsAux false l

/-- The effect of `.replace(/ /g, " ")`. -/
def nbspToSpace (l : List Char) : List Char :=
  l.map (fun c => if c = Char.ofNat 160 then ' ' else c)

/-- Split on runs of JavaScript whitespace, keeping only non-empty parts
(the effect of `.split(/\s+/)` followed by a filter that drops empty
strings, which every call site of the source performs). -/
def splitWsAux : List Char → List Char → List (List Char)
  | [], acc => [acc.reverse]
  | c :: cs, acc =>
    if jsIsSpace c then acc.reverse :: splitWsAux cs [] else splitWsAux cs (c :: acc)

/-- Split a character list on whitespace into non-empty words. -/
def splitWs (l : List Char) : List (List Char) :=
  (splitWsAux l []).filter (· ≠ [])

/-- Try to strip the literal `lit` from the front of `s`. -/
def dropLit : List Char → List Char → Option (List Char)
  | [], s => some s
  | _, [] => none
  | p :: ps, c :: cs => if c = p then dropLit ps cs else none

/-- Fuel-indexed global literal replacement, scanning left to right without
overlap — the semantics of `String.prototype.replace` with a global literal
pattern. -/
def replaceAllAux (pat sub : List Char) : ℕ → List Char → List Char
  | 0, s => s
  | _, [] => []
  | fuel+1, c :: cs =>
    match dropLit pat (c :: cs) with
    | some rest => sub ++ replaceAllAux pat sub fuel rest
    | none => c :: replaceAllAux pat sub fuel cs

/-- Global literal replacement on character lists. -/
def replaceAll (pat sub s : List Char) : List Char := replaceAllAux pat sub s.length s

/-- Whether `needle` occurs as a contiguous substring of `hay`
(JavaScript `String.prototype.includes`). -/
def containsSubAux (needle : List Char) : List Char → Bool
  | [] => (dropLit needle []).isSome
  | c :: cs => (dropLit needle (c :: cs)).isSome || containsSubAux needle cs

/-- JavaScript `String.prototype.includes` on strings. -/
def containsSub (hay needle : String) : Bool := containsSubAux needle.data hay.data

/-! ### Pure string functions of `src/use-case/inlinks/apply-edits.ts` -/

/-- `normalizeWhitespace` from `apply-edits.ts`: NBSP to space, collapse
whitespace runs, trim. -/
def normalizeWhitespaceL (l : List Char) : List Char :=
  jsTrim (collapseWs (nbspToSpace l))

/-- `normalizeWhitespace` on strings. -/
def normalizeWhitespace (s : String) : String := ⟨normalizeWhitespaceL s.data⟩

/-- `escapeHtml` from `apply-edits.ts`: the five sequential global
replacements, in source order. -/
def escapeHtmlL (l : List Char) : List Char :=
  replaceAll [Char.ofNat 39] "&#39;".data
    (replaceAll "\"".data "&quot;".data
      (replaceAll ">".data "&gt;".data
        (replaceAll "<".data "&lt;".data
          (replaceAll "&".data "&amp;".data l))))

/-- `escapeHtml` on strings. -/
def escapeHtml (s : String) : String := ⟨escapeHtmlL s.data⟩

/-- Split at the first occurrence of `stop`, returning the characters
before it and the remainder after it; `none` when `stop` never occurs. -/
def splitAtChar (stop : Char) : List Char → Option (List Char × List Char)
  | [] => none
  | c :: cs =>
    if c = stop then some ([], cs)
    else
      match splitAtChar stop cs with
      | some (run, rest) => some (c :: run, rest)
      | none => none

/-- Match the regular expression `\[[^\]]+\]\(([^)]+)\)` at the head of the
input: a `[`, a non-empty run of characters other than `]`, a `]`, a `(`,
a non-empty run of characters other than `)`, and a `)`.  Returns the link
text, the captured URL group and the remainder. -/
def tryLinkAt : List Char → Option (List Char × List Char × List Char)
  | '[' :: cs =>
    match splitAtChar ']' cs with
    | some (text, afterBr) =>
      if text.isEmpty then none
      else
        match afterBr with
        | '(' :: ds =>
          match splitAtChar ')' ds with
          | some (url, rest) => if url.isEmpty then none else some (text, url, rest)
          | none => none
        | _ => none
    | none => none
  | _ => none

/-- All non-overlapping matches of the markdown-link pattern, scanning left
to right (the semantics of `matchAll` with the global flag). -/
def linkScanAux : ℕ → List Char → List (List Char × List Char)
  | 0, _ => []
  | _, [] => []
  | fuel+1, c :: cs =>
    match tryLinkAt (c :: cs) with
    | some (t, u, rest) => (t, u) :: linkScanAux fuel rest
    | none => linkScanAux fuel cs

/-- The list of `(text, capturedUrl)` pairs of markdown links found in a
string by the source's regular expression. -/
def linkMatches (s : String) : List (String × String) :=
  (linkScanAux s.data.length s.data).map (fun p => (⟨p.1⟩, ⟨p.2⟩))

/-- The replacement template of `markdownLinkToHtml`. -/
def linkHtmlOf (text url : List Char) : List Char :=
  "<a href=\"".data ++ escapeHtmlL url ++
    "\" target=\"_blank\" rel=\"noopener noreferrer\">".data ++
    escapeHtmlL text ++ "</a>".data

/-- Fuel-indexed scanner for `markdownLinkToHtml`'s global regex replace. -/
def linkReplaceAux : ℕ → List Char → List Char
  | 0, s => s
  | _, [] => []
  | fuel+1, c :: cs =>
    match tryLinkAt (c :: cs) with
    | some (t, u, rest) => linkHtmlOf t u ++ linkReplaceAux fuel rest
    | none => c :: linkReplaceAux fuel cs

/-- `markdownLinkToHtml` from `apply-edits.ts`: converts every
`[text](url)` into an anchor tag with escaped URL and text. -/
def markdownLinkToHtml (s : String) : String := ⟨linkReplaceAux s.data.length s.data⟩

/-- `tokenize` from `apply-edits.ts`: normalize whitespace, split on
whitespace, drop empty tokens. -/
def tokenize (s : String) : List String :=
  (splitWs (normalizeWhitespaceL s.data)).map (fun l => (⟨l⟩ : String))

/-- Join with single spaces (the effect of `.join(" ")`). -/
def joinSpace : List String → String
  | [] => ""
  | [x] => x
  | x :: xs => x ++ " " ++ joinSpace xs

/-- One DP-row step of `lcsUnchangedMask`: given the previous row (from
entry `j-1` onward) and the value to the left, produce the remaining
entries of the current row. -/
def lcsRowStep (x : String) : List String → List ℕ → ℕ → List ℕ
  | [], _, _ => []
  | _ :: _, [], _ => []
  | bj :: bs, diag :: rest, left =>
    let up := rest.headD 0
    let cur := if x = bj then diag + 1 else max up left
    cur :: lcsRowStep x bs rest cur

/-- Compute a full DP row of the LCS table (index 0 stays 0, as in the
source where `row[0]` is never assigned). -/
def lcsNextRow (x : String) (b : List String) (prev : List ℕ) : List ℕ :=
  0 :: lcsRowStep x b prev 0

/-- The LCS DP table of `lcsUnchangedMask`: row `i` holds the LCS lengths
of the first `i` tokens of `a` against the column numbers of tokens of
`b`. -/
def lcsRows (a b : List String) : List (List ℕ) :=
  a.foldl
    (fun rows x => rows ++ [lcsNextRow x b (rows.getLast?.getD (List.replicate (b.length + 1) 0))])
    [List.replicate (b.length + 1) 0]

/-- The traceback loop of `lcsUnchangedMask`, collecting the `b`-indices
that belong to the longest common subsequence.  Out-of-range accesses
default to 0 exactly as the source's `?? 0` does. -/
def lcsTraceAux (a b : List String) (rows : List (List ℕ)) : ℕ → ℕ → ℕ → List ℕ
  | 0, _, _ => []
  | fuel+1, i, j =>
    if i = 0 ∨ j = 0 then []
    else if a.getD (i-1) "" = b.getD (j-1) "" then
      (j-1) :: lcsTraceAux a b rows fuel (i-1) (j-1)
    else if ((rows.getD i []).getD (j-1) 0) ≤ ((rows.getD (i-1) []).getD j 0) then
      lcsTraceAux a b rows fuel (i-1) j
    else
      lcsTraceAux a b rows fuel i (j-1)

/-- `lcsUnchangedMask` from `apply-edits.ts`: which tokens of `b` are part
of the longest common subsequence against `a`. -/
def lcsUnchangedMask (a b : List String) : List Bool :=
  let rows := lcsRows a b
  let marks := lcsTraceAux a b rows (a.length + b.length) a.length b.length
  (List.range b.length).map (fun j => marks.contains j)

/-- Argument record of `highlightDiffWordsToHtml`. -/
structure DiffInput where
  originalText : String
  modifiedMarkdown : String
deriving DecidableEq

/-- The opening changed-token marker emitted before markdown conversion. -/
def hOpen : String := "[[H]]"

/-- The closing changed-token marker. -/
def hClose : String := "[[/H]]"

/-- The HTML marker that `[[H]]` is rewritten to. -/
def markOpenModified : String := "<mark class=\"inlink-highlight-modified\">"

/-- `highlightDiffWordsToHtml` from `apply-edits.ts`: word-level diff of
the original block text against the modified markdown, wrapping every
token outside the LCS in the changed-token marker, then converting
markdown links and materialising the markers as `<mark>` tags. -/
def highlightDiffWordsToHtml (input : DiffInput) : String :=
  let originalTokens := tokenize input.originalText
  let modifiedTokens := tokenize input.modifiedMarkdown
  let highlightAll :=
    originalTokens.length = 0 ∨ normalizeWhitespace input.originalText = "[Trecho novo]"
  let unchangedMask :=
    if highlightAll then List.replicate modifiedTokens.length false
    else lcsUnchangedMask originalTokens modifiedTokens
  let marked := joinSpace (modifiedTokens.enum.map (fun p =>
    if highlightAll ∨ !(unchangedMask.getD p.1 false) then
      hOpen ++ escapeHtml p.2 ++ hClose
    else escapeHtml p.2))
  let withLinks := markdownLinkToHtml marked
  ⟨replaceAll hClose.data "</mark>".data
    (replaceAll hOpen.data markOpenModified.data withLinks.data)⟩

/-- The fully marked rendering of a modified markdown text: every token is
wrapped in the changed-token marker before link conversion.  This is the
output shape the specification demands when there is nothing to diff
against. -/
def allMarkedRender (modifiedMarkdown : String) : String :=
  let marked := joinSpace ((tokenize modifiedMarkdown).map (fun t =>
    hOpen ++ escapeHtml t ++ hClose))
  ⟨replaceAll hClose.data "</mark>".data
    (replaceAll hOpen.data markOpenModified.data (markdownLinkToHtml marked).data)⟩

/-- Match the literal anchor-tag pattern of `highlightLinkedWordsToHtml`
at the head of the input: `<a href="`, a non-empty run without `"`, the
literal `" target="_blank" rel="noopener noreferrer">`, a lazily matched
body, and `</a>`.  Returns the href, the body and the remainder. -/
def splitAtCloseA : List Char → Option (List Char × List Char)
  | '<' :: '/' :: 'a' :: '>' :: rest => some ([], rest)
  | c :: cs =>
    match splitAtCloseA cs with
    | some (body, rest) => some (c :: body, rest)
    | none => none
  | [] => none

/-- Attempt the anchor-tag regex of `highlightLinkedWordsToHtml` at the
head of the input. -/
def tryAnchorTagAt (s : List Char) : Option (List Char × List Char × List Char) :=
  match dropLit "<a href=\"".data s with
  | none => none
  | some s1 =>
    match splitAtChar '"' s1 with
    | none => none
    | some (href, s2) =>
      if href.isEmpty then none
      else
        match dropLit " target=\"_blank\" rel=\"noopener noreferrer\">".data s2 with
        | none => none
        | some s3 =>
          match splitAtCloseA s3 with
          | some (body, rest) => some (href, body, rest)
          | none => none

/-- The replacement template wrapping a matched anchor tag in the green
highlight marker. -/
def linkedMarkOf (href body : List Char) : List Char :=
  "<mark class=\"inlink-highlight-linked\"><a href=\"".data ++ href ++
    "\" target=\"_blank\" rel=\"noopener noreferrer\">".data ++ body ++
    "</a></mark>".data

/-- Fuel-indexed scanner for the global anchor-wrapping replace. -/
def linkedWrapAux : ℕ → List Char → List Char
  | 0, s => s
  | _, [] => []
  | fuel+1, c :: cs =>
    match tryAnchorTagAt (c :: cs) with
    | some (href, body, rest) => linkedMarkOf href body ++ linkedWrapAux fuel rest
    | none => c :: linkedWrapAux fuel cs

/-- `highlightLinkedWordsToHtml` from `apply-edits.ts`: convert markdown
links, then wrap every generated anchor tag in the linked-highlight
marker. -/
def highlightLinkedWordsToHtml (markdown : String) : String :=
  let html := markdownLinkToHtml markdown
  ⟨linkedWrapAux html.data.length html.data⟩

/-! ### Pure functions of `src/use-case/extract-content.ts` (block graph) -/

/-- A principal content block as consumed by the block-based strategist
graph (`PrincipalBlock` in the source).  The `type` field is kept as a raw
string because the runtime filter re-checks it. -/
structure PrincipalBlock where
  id : String
  type : String
  text : String
  containsLink : Bool
deriving DecidableEq

/-- The accented letters of the token alphabet used by `pickBestBlock` and
`anchorTokenOverlap` (`[^a-z0-9áéíóúãõâêîôûàç\s]` with the `i` flag). -/
def tokenAlphabet : List Char := "áéíóúãõâêîôûàç".data

/-- Whether a character is kept by the token-alphabet character class. -/
def tokenKeepChar (c : Char) : Bool :=
  decide ('a' ≤ c ∧ c ≤ 'z') || decide ('A' ≤ c ∧ c ≤ 'Z') ||
  decide ('0' ≤ c ∧ c ≤ '9') || tokenAlphabet.contains (jsToLower c) || jsIsSpace c

/-- Replace every maximal run of characters outside the token alphabet by a
single space (the effect of `.replace(/[^a-z0-9áéíóúãõâêîôûàç\s]+/gi, " ")`).
The flag records whether the previous character was replaced. -/
def stripNonTokenAux : Bool → List Char → List Char
  | _, [] => []
  | prevBad, c :: cs =>
    if tokenKeepChar c then c :: stripNonTokenAux false cs
    else if prevBad then stripNonTokenAux true cs
    else ' ' :: stripNonTokenAux true cs

/-- The token-alphabet run replacement on a character list. -/
def stripNonToken (l : List Char) : List Char := stripNonTokenAux false l

/-- `normalizeTokens` from `pickBestBlock`: lowercase, NBSP to space, strip
non-token characters, split on whitespace, keep tokens longer than 2. -/
def normalizeTokens (value : String) : List String :=
  ((splitWs (stripNonToken (nbspToSpace (value.data.map jsToLower)))).map
    (fun l => (⟨l⟩ : String))).filter (fun t => 2 < t.length)

/-- The overlap score `pickBestBlock` computes for one block: the number of
occurrences of block tokens that belong to the candidate token set. -/
def blockOverlapScore (candTokens : List String) (b : PrincipalBlock) : ℤ :=
  ((normalizeTokens b.text).countP (fun t => candTokens.contains t) : ℤ)

/-- The accumulator loop of `pickBestBlock`: best block so far and its
score, starting from `(null, -1)`; blocks whose token list is empty are
skipped, and a block replaces the current best only on a strictly greater
score. -/
def pickBestBlockLoop (candTokens : List String) :
    List PrincipalBlock → Option PrincipalBlock × ℤ → Option PrincipalBlock × ℤ
  | [], st => st
  | b :: bs, st =>
    let tokens := normalizeTokens b.text
    if tokens.length = 0 then pickBestBlockLoop candTokens bs st
    else
      let score := blockOverlapScore candTokens b
      if st.2 < score then pickBestBlockLoop candTokens bs (some b, score)
      else pickBestBlockLoop candTokens bs st

/-- `pickBestBlock` from `extract-content.ts`.  The candidate token set is
modelled by list membership; it is empty exactly when the token list is. -/
def pickBestBlock (blocks : List PrincipalBlock) (candidateContent : String) :
    Option PrincipalBlock :=
  let candTokens := normalizeTokens candidateContent
  if candTokens.isEmpty then none
  else (pickBestBlockLoop candTokens blocks (none, -1)).1

/-- Compare a block (earlier in the list) against the best of the rest:
the earlier block wins on ties. -/
def challengeMax (b : PrincipalBlock) (s : ℤ) :
    Option (PrincipalBlock × ℤ) → Option (PrincipalBlock × ℤ)
  | none => some (b, s)
  | some (b2, s2) => if s2 ≤ s then some (b, s) else some (b2, s2)

/-- Recursive characterisation of the block `pickBestBlock` returns: the
first block (among those with a non-empty token list) attaining the
maximal overlap score, together with that score. -/
def firstMaxBlock (candTokens : List String) : List PrincipalBlock → Option (PrincipalBlock × ℤ)
  | [] => none
  | b :: bs =>
    if (normalizeTokens b.text).length = 0 then firstMaxBlock candTokens bs
    else challengeMax b (blockOverlapScore candTokens b) (firstMaxBlock candTokens bs)

/-- Resolve a loop state against the best of the remaining blocks: a
later block wins only with a strictly greater score. -/
def resolvePick (st : Option PrincipalBlock × ℤ) :
    Option (PrincipalBlock × ℤ) → Option PrincipalBlock × ℤ
  | none => st
  | some (b2, s2) => if st.2 < s2 then (some b2, s2) else st

/-- `ensureSingleMarkdownLink` from `extract-content.ts`: exactly one
markdown-link match whose captured URL, trimmed, equals the expected URL. -/
def ensureSingleMarkdownLink (modifiedBlockText expectedUrl : String) : Bool :=
  match linkMatches modifiedBlockText with
  | [(_, url)] => jsTrimS url = expectedUrl
  | _ => false

/-- The fixed generic-anchor phrase set of `isGenericAnchor`. -/
def genericPhrases : List String :=
  ["clique aqui", "aqui", "saiba mais", "leia mais", "neste link",
   "confira", "veja", "acesse", "entenda", "descubra"]

/-! Backtracking matchers for the vague-anchor regular expressions.  A
matcher maps an input to the list of possible remainders; a pattern
anchored at both ends matches when some remainder is empty. -/

/-- Match a literal. -/
def reLit (lit : String) (s : List Char) : List (List Char) :=
  match dropLit lit.data s with
  | some r => [r]
  | none => []

/-- Match `\s*`: all remainders after consuming zero or more leading
whitespace characters. -/
def reSpaces : List Char → List (List Char)
  | [] => [[]]
  | c :: cs => (c :: cs) :: (if jsIsSpace c then reSpaces cs else [])

/-- Match an optional sub-pattern. -/
def reOpt (f : List Char → List (List Char)) (s : List Char) : List (List Char) :=
  s :: f s

/-- Sequence two matchers. -/
def reSeq (f g : List Char → List (List Char)) (s : List Char) : List (List Char) :=
  (f s).flatMap g

/-- Alternation of two matchers. -/
def reAlt (f g : List Char → List (List Char)) (s : List Char) : List (List Char) :=
  f s ++ g s

/-- Match exactly `n` digits. -/
def reDigits : ℕ → List Char → List (List Char)
  | 0, s => [s]
  | _+1, [] => []
  | n+1, c :: cs => if c.isDigit then reDigits n cs else []

/-- Whether an anchored pattern consumes the whole input. -/
def reFull (f : List Char → List (List Char)) (s : List Char) : Bool :=
  (f s).any List.isEmpty

/-- The vague-anchor patterns of `isGenericAnchor`, in source order:
`^modelo\s*\d\d\d\d$`, `^modelos?\s*(mais)?\s*(recentes|novos|antigos)?$`,
`^opções?\s*(disponíveis)?$`, `^lista\s*(completa)?$`, `^artigo$`,
`^conteúdo$`, `^post$`, `^guia$`, `^veja\s*(a)?\s*lista$` (all with the
`i` flag; the input is already lowercased). -/
def vagueMatchers : List (List Char → List (List Char)) :=
  [reSeq (reLit "modelo") (reSeq reSpaces (reDigits 4)),
   reSeq (reLit "modelo") (reSeq (reOpt (reLit "s")) (reSeq reSpaces
     (reSeq (reOpt (reLit "mais")) (reSeq reSpaces
       (reOpt (reAlt (reLit "recentes") (reAlt (reLit "novos") (reLit "antigos")))))))),
   reSeq (reLit "opçõe") (reSeq (reOpt (reLit "s")) (reSeq reSpaces
     (reOpt (reLit "disponíveis")))),
   reSeq (reLit "lista") (reSeq reSpaces (reOpt (reLit "completa"))),
   reLit "artigo",
   reLit "conteúdo",
   reLit "post",
   reLit "guia",
   reSeq (reLit "veja") (reSeq reSpaces (reSeq (reOpt (reLit "a")) (reSeq reSpaces (reLit "lista"))))]

/-- Split on a single separator character, keeping empty parts (JavaScript
`String.prototype.split` with a character separator). -/
def splitCharAux (sep : Char) : List Char → List Char → List (List Char)
  | [], acc => [acc.reverse]
  | c :: cs, acc =>
    if c = sep then acc.reverse :: splitCharAux sep cs [] else splitCharAux sep cs (c :: acc)

/-- Split a character list on a separator character. -/
def splitChar (sep : Char) (l : List Char) : List (List Char) := splitCharAux sep l []

/-- `isGenericAnchor` from `extract-content.ts`: normalized anchor is
empty, a generic CTA phrase, a vague pattern, shorter than two words, or
all digits. -/
def isGenericAnchor (anchor : String) : Bool :=
  let a : String := ⟨jsTrim (collapseWs (nbspToSpace (anchor.data.map jsToLower)))⟩
  if a = "" then true
  else if genericPhrases.contains a then true
  else if vagueMatchers.any (fun m => reFull m a.data) then true
  else if ((splitChar ' ' a.data).filter (· ≠ [])).length < 2 then true
  else if a.data.all Char.isDigit then true
  else false

/-- The stopword set of `anchorTokenOverlap`. -/
def anchorStopwords : List String :=
  ["a", "o", "os", "as", "um", "uma", "uns", "umas", "de", "do", "da",
   "dos", "das", "no", "na", "nos", "nas", "em", "para", "por", "com",
   "sem", "e", "ou", "que", "como", "mais", "menos", "sobre", "até",
   "entre", "também", "veja", "confira"]

/-- The `normalize` helper of `anchorTokenOverlap`: lowercase, NBSP to
space, strip non-token characters, collapse whitespace, trim. -/
def anchorNormalizeStr (v : String) : String :=
  ⟨jsTrim (collapseWs (stripNonToken (nbspToSpace (v.data.map jsToLower))))⟩

/-- The `tokenize` helper of `anchorTokenOverlap`: split the normalized
text on spaces, trim each part, keep parts longer than 2 that are not
stopwords. -/
def anchorTokenize (v : String) : List String :=
  ((splitChar ' ' (anchorNormalizeStr v).data).map (fun l => (⟨jsTrim l⟩ : String))).filter
    (fun t => decide (2 < t.length) && !(anchorStopwords.contains t))

/-- `anchorTokenOverlap` from `extract-content.ts`: the number of anchor
tokens found in the candidate token set, together with the number of
anchor tokens. -/
def anchorTokenOverlap (anchor candidateContent : String) : ℕ × ℕ :=
  let aTokens := anchorTokenize anchor
  if aTokens.length = 0 then (0, 0)
  else
    let cTokens := anchorTokenize candidateContent
    (aTokens.countP (fun t => cTokens.contains t), aTokens.length)

/-- The `normalizeAnchor` helper of `judgeCandidatesNode`: lowercase, NBSP
to space, collapse whitespace, trim. -/
def normalizeAnchor (value : String) : String :=
  ⟨jsTrim (collapseWs (nbspToSpace (value.data.map jsToLower)))⟩

/-- The word count used by `computeMaxLinks` and the run metrics:
`content.trim().split(/\s+/).length`, with the empty-after-trim case
counted as zero. -/
def jsWordCount (content : String) : ℕ :=
  if jsTrim content.data = [] then 0 else (splitWs (jsTrim content.data)).length

/-- The default link budget: `max(2, ceil(wordCount / 1000 * 4))`. -/
def defaultMaxLinks (content : String) : ℤ :=
  max 2 (Int.ceil ((jsWordCount content : ℚ) / 1000 * 4))

/-- `computeMaxLinks` from `extract-content.ts`.  A supplied finite
positive number is floored; otherwise the default budget applies.
Non-finite numbers, which also fall back to the default in the source,
are modelled by `none`. -/
def computeMaxLinks (content : String) (explicit : Option ℚ) : ℤ :=
  match explicit with
  | some e => if 0 < e then Int.floor e else defaultMaxLinks content
  | none => defaultMaxLinks content

/-- A ranked candidate (`CandidateItem` in the source).  The score type is
a parameter: the judge only carries scores through, and the scorer
instantiates it with `ℝ`. -/
structure CandidateItem (S : Type) where
  url : String
  content : String
  score : S
deriving DecidableEq

/-- A diagnostic rejection record (`{url, reason, score?}`). -/
structure Rejection (S : Type) where
  url : String
  reason : String
  score : Option S
deriving DecidableEq

/-- The optional SEO metrics attached to a decision.  JavaScript numbers
that are only stored, never computed with, are modelled as `ℚ`. -/
structure SeoMetrics where
  relevance : ℚ
  authority : ℚ
deriving DecidableEq

/-- A committed, validated link insertion (`BlockEdit` in
`extract-content.ts`). -/
structure BlockEdit where
  blockId : String
  targetUrl : String
  anchor : String
  originalBlockText : String
  modifiedBlockText : String
  overwriteBlock : Bool
  justification : String
  metrics : Option SeoMetrics
deriving DecidableEq

/-- A generation response that passed JSON extraction and schema
validation (`DecisionSchema` in the source). -/
structure Decision where
  ok : Bool
  url : String
  block_id : String
  anchor : String
  original_block_text : String
  modified_block_text : String
  reason : String
  overwrite_block : Option Bool
  seo_metrics : Option SeoMetrics
deriving DecidableEq

/-- The outcome of one generation call, as seen by the judge after the
`llm.invoke` / JSON-extraction / schema-validation block: the call threw
(`llm.invoke` or `JSON.parse` raised), the raw text contained no valid
schema-conforming JSON object, or a validated decision was produced.
These three cases are exactly the branches the judge distinguishes. -/
inductive GenOutcome where
  | threw
  | invalid
  | parsed (d : Decision)
deriving DecidableEq

/-- The rejection reasons of `judgeCandidatesNode`, verbatim. -/
def densityReason : String := "Limite máximo de densidade de links atingido."

/-- Rejection reason of the URL-uniqueness gate. -/
def urlUsedReason : String := "URL já selecionada anteriormente neste conteúdo."

/-- Rejection reason of the missing-blocks (legacy) gate. -/
def legacyReason : String :=
  "Pipeline por blocos não disponível (principalBlocks ausente). Use o modo legado ou forneça blocks."

/-- Rejection reason when no eligible block exists. -/
def noEligibleReason : String :=
  "Não há blocos elegíveis (parágrafos/listas sem links) para inserir novos links."

/-- Rejection reason when no target block could be selected. -/
def noTargetReason : String := "Falha ao selecionar um bloco alvo para inserção."

/-- Rejection reason of the pre-generation block-reuse gate. -/
def blockUsedReason : String :=
  "Bloco alvo já utilizado por outro link (evitando múltiplas alterações no mesmo parágrafo/item)."

/-- Rejection reason when the response fails JSON extraction/validation. -/
def invalidJsonReason : String := "Falha ao validar a resposta do modelo (JSON inválido)."

/-- Rejection reason of the block-identity audit. -/
def idDriftReason : String := "Modelo retornou block_id diferente do solicitado."

/-- Rejection reason of the snapshot audit. -/
def snapshotReason : String :=
  "Modelo não copiou o texto original do bloco exatamente (auditoria falhou)."

/-- Rejection reason of the link-shape audit. -/
def singleLinkReason : String :=
  "O bloco modificado deve conter exatamente 1 link em Markdown apontando para a URL candidata."

/-- Rejection reason of the anchor-consistency audit. -/
def anchorMatchReason : String :=
  "A âncora retornada precisa corresponder ao texto do link em Markdown."

/-- Rejection reason of the generic-anchor filter. -/
def genericAnchorReason : String :=
  "Âncora rejeitada por ser genérica/ambígua. Use uma âncora descritiva (2-6 palavras) alinhada ao tema da URL candidata."

/-- Rejection reason of the topical-overlap filter. -/
def topicalReason : String :=
  "Âncora rejeitada por baixa aderência temática ao conteúdo candidato (overlap de termos insuficiente). Use 2-6 palavras com termos que apareçam no conteúdo candidato."

/-- Rejection reason for an anchor that is empty after normalization. -/
def emptyAnchorReason : String := "Âncora vazia após normalização."

/-- Rejection reason of the anchor-uniqueness gate. -/
def anchorUsedReason : String :=
  "Âncora já utilizada anteriormente (evitando repetição e melhorando a variedade semântica)."

/-- Rejection reason of the post-generation block-reuse re-check. -/
def blockUsedAgainReason : String :=
  "Bloco já utilizado por outro link (evitando múltiplas alterações no mesmo bloco)."

/-- Rejection reason recorded by the catch-all handler of the judge. -/
def execErrorReason : String := "Erro de execução no agente SEO (block-graph)."

/-- The judge's accumulating state: committed edits, rejections, and the
used-URL / used-block / used-anchor sets (modelled as lists with
membership). -/
structure JudgeAcc (S : Type) where
  edits : List BlockEdit
  rejected : List (Rejection S)
  usedUrls : List String
  usedBlockIds : List String
  usedAnchors : List String

/-- Append a rejection for the current candidate, carrying its score. -/
def rejectWith {S : Type} (acc : JudgeAcc S) (c : CandidateItem S) (reason : String) :
    JudgeAcc S :=
  { acc with rejected := acc.rejected ++ [⟨c.url, reason, some c.score⟩] }

/-- The edit committed for a fully validated decision (the object pushed
onto `edits` in the source). -/
def commitEdit (decision : Decision) (targetUrl : String) : BlockEdit :=
  ⟨decision.block_id, targetUrl, decision.anchor, decision.original_block_text,
    decision.modified_block_text, decision.overwrite_block.getD true,
    decision.reason, decision.seo_metrics⟩

/-- Commit an edit and mark the URL, block id and normalized anchor as
used. -/
def acceptWith {S : Type} (acc : JudgeAcc S) (candidate : CandidateItem S)
    (decision : Decision) : JudgeAcc S :=
  { acc with
      edits := acc.edits ++ [commitEdit decision candidate.url]
      usedUrls := acc.usedUrls ++ [candidate.url]
      usedBlockIds := acc.usedBlockIds ++ [decision.block_id]
      usedAnchors := acc.usedAnchors ++ [normalizeAnchor decision.anchor] }

/-- Gates 12–15 of the candidate loop (topical overlap, empty anchor,
anchor uniqueness, block-reuse re-check) followed by the commit. -/
def judgeAnchorGates {S : Type} (candidate : CandidateItem S) (decision : Decision)
    (acc : JudgeAcc S) : JudgeAcc S :=
  if (anchorTokenOverlap decision.anchor candidate.content).1 <
      (if 4 ≤ (anchorTokenOverlap decision.anchor candidate.content).2 then 2
       else if 2 ≤ (anchorTokenOverlap decision.anchor candidate.content).2 then 1 else 0 : ℕ)
  then rejectWith acc candidate topicalReason
  else if normalizeAnchor decision.anchor = "" then rejectWith acc candidate emptyAnchorReason
  else if normalizeAnchor decision.anchor ∈ acc.usedAnchors then
    rejectWith acc candidate anchorUsedReason
  else if decision.block_id ∈ acc.usedBlockIds then
    rejectWith acc candidate blockUsedAgainReason
  else acceptWith acc candidate decision

/-- Gates 7–11 of the candidate loop: the decision audit (model `ok`,
block-identity, snapshot, link-shape, anchor-consistency, generic-anchor)
applied to a parsed decision. -/
def judgeAudit {S : Type} (candidate : CandidateItem S) (bestBlock : PrincipalBlock)
    (decision : Decision) (acc : JudgeAcc S) : JudgeAcc S :=
  if !decision.ok then rejectWith acc candidate decision.reason
  else if decision.block_id ≠ bestBlock.id then rejectWith acc candidate idDriftReason
  else if jsTrimS decision.original_block_text ≠ jsTrimS bestBlock.text then
    rejectWith acc candidate snapshotReason
  else if !ensureSingleMarkdownLink decision.modified_block_text candidate.url then
    rejectWith acc candidate singleLinkReason
  else if !containsSub decision.modified_block_text ("[" ++ decision.anchor ++ "](") then
    rejectWith acc candidate anchorMatchReason
  else if isGenericAnchor decision.anchor then
    rejectWith acc candidate genericAnchorReason
  else judgeAnchorGates candidate decision acc

/-- One iteration of the candidate loop of `judgeCandidatesNode`: the
ordered gates, ending either in a rejection or in a committed edit.  `gen`
is the generation oracle, indexed by the iteration number. -/
def judgeStep {S : Type} (gen : ℕ → GenOutcome) (hasBlocks : Bool)
    (eligibleBlocks : List PrincipalBlock) (maxLinks : ℤ)
    (idx : ℕ) (candidate : CandidateItem S) (acc : JudgeAcc S) : JudgeAcc S :=
  if maxLinks ≤ (acc.edits.length : ℤ) then rejectWith acc candidate densityReason
  else if candidate.url ∈ acc.usedUrls then rejectWith acc candidate urlUsedReason
  else if !hasBlocks then rejectWith acc candidate legacyReason
  else if eligibleBlocks.isEmpty then rejectWith acc candidate noEligibleReason
  else
    match pickBestBlock
        (if (eligibleBlocks.filter (fun b => decide (b.id ∉ acc.usedBlockIds))).isEmpty
         then eligibleBlocks
         else eligibleBlocks.filter (fun b => decide (b.id ∉ acc.usedBlockIds)))
        candidate.content with
    | none => rejectWith acc candidate noTargetReason
    | some bestBlock =>
      if bestBlock.id ∈ acc.usedBlockIds then rejectWith acc candidate blockUsedReason
      else
        match gen idx with
        | .threw => rejectWith acc candidate execErrorReason
        | .invalid => rejectWith acc candidate invalidJsonReason
        | .parsed decision => judgeAudit candidate bestBlock decision acc

/-- The sequential candidate loop of `judgeCandidatesNode`. -/
def judgeLoop {S : Type} (gen : ℕ → GenOutcome) (hasBlocks : Bool)
    (eligibleBlocks : List PrincipalBlock) (maxLinks : ℤ) :
    ℕ → List (CandidateItem S) → JudgeAcc S → JudgeAcc S
  | _, [], acc => acc
  | idx, c :: cs, acc =>
    judgeLoop gen hasBlocks eligibleBlocks maxLinks (idx + 1) cs
      (judgeStep gen hasBlocks eligibleBlocks maxLinks idx c acc)

/-- The state fields of the block graph read by `judgeCandidatesNode`. -/
structure JudgeInput (S : Type) where
  principalBlocks : Option (List PrincipalBlock)
  principalContent : String
  scoredCandidates : List (CandidateItem S)
  maxLinks : Option ℚ

/-- The output of `judgeCandidatesNode`. -/
structure JudgeResult (S : Type) where
  edits : List BlockEdit
  rejected : List (Rejection S)

/-- `judgeCandidatesNode` from `extract-content.ts`: compute the eligible
blocks and the link budget, then run the sequential candidate loop from
the empty state. -/
def judgeCandidatesNode {S : Type} (gen : ℕ → GenOutcome) (st : JudgeInput S) :
    JudgeResult S :=
  let hasBlocks := 0 < (st.principalBlocks.getD []).length
  let eligibleBlocks :=
    if hasBlocks then
      (st.principalBlocks.getD []).filter
        (fun b => (b.type == "paragraph" || b.type == "list_item") && !b.containsLink)
    else []
  let maxLinks := computeMaxLinks st.principalContent st.maxLinks
  let acc := judgeLoop gen hasBlocks eligibleBlocks maxLinks 0 st.scoredCandidates
    ⟨[], [], [], [], []⟩
  ⟨acc.edits, acc.rejected⟩

/-! ### Candidate scoring (`scoreCandidatesNode` and `cosineSimilarity`) -/

/-- Rejection reason for candidates with empty or unavailable content. -/
def emptyContentReason : String := "Conteúdo vazio ou indisponível."

/-- Rejection reason for candidates below the threshold or outside the
top-N cut. -/
def belowThresholdReason : String := "Similaridade abaixo do limiar ou fora do top."

/-- The accumulated dot product of `cosineSimilarity`'s loop. -/
def dotList (a b : List ℝ) : ℝ := ((a.zip b).map (fun p => p.1 * p.2)).sum

/-- The accumulated squared norm of `cosineSimilarity`'s loop. -/
def sumSquares (a : List ℝ) : ℝ := (a.map (fun x => x * x)).sum

open scoped Classical in
/-- `cosineSimilarity` from `extract-content.ts`.  A length mismatch throws
in the source and is modelled as `none`; a zero squared norm on either side
yields `0`; otherwise the quotient by the product of the square-rooted
norms is returned.  JavaScript doubles are modelled as reals. -/
noncomputable def cosineSimilarity (a b : List ℝ) : Option ℝ :=
  if a.length ≠ b.length then none
  else if sumSquares a = 0 ∨ sumSquares b = 0 then some 0
  else some (dotList a b / (Real.sqrt (sumSquares a) * Real.sqrt (sumSquares b)))

/-- The output of `scoreCandidatesNode`. -/
structure ScoreResult where
  scoredCandidates : List (CandidateItem ℝ)
  rejected : List (Rejection ℝ)

/-- The `validCandidates` list of `scoreCandidatesNode`: URLs paired with
their fetched contents (missing entries default to the empty string),
keeping only candidates whose trimmed content is non-empty. -/
def validCandidatesOf (urls contents : List String) : List (String × String) :=
  (urls.enum.map (fun p => (p.2, contents.getD p.1 ""))).filter
    (fun c => 0 < (jsTrim c.2.data).length)

open scoped Classical in
/-- Stable insertion of `x` into a descending-sorted list: `x` is placed
after every element whose key is at least `key x`. -/
noncomputable def sInsertDesc {α : Type} (key : α → ℝ) (x : α) : List α → List α
  | [] => [x]
  | y :: ys =>
    if key x ≤ key y then y :: sInsertDesc key x ys
    else x :: y :: ys

/-- The stable descending sort performed by
`sort((a, b) => b.score - a.score)` (ECMAScript sorts are stable). -/
noncomputable def sortDesc {α : Type} (key : α → ℝ) (l : List α) : List α :=
  l.foldl (fun acc x => sInsertDesc key x acc) []

open scoped Classical in
/-- Score one valid candidate, tagged with its array position: the
cosine similarity of the principal embedding against the candidate's
embedding (missing batch entries default to the empty vector). -/
noncomputable def scoreOf (principalEmbedding : List ℝ) (embeddings : List (List ℝ))
    (p : ℕ × (String × String)) : Option (ℕ × CandidateItem ℝ) :=
  (cosineSimilarity principalEmbedding (embeddings.getD p.1 [])).map
    (fun s => (p.1, CandidateItem.mk p.2.1 p.2.2 s))

open scoped Classical in
/-- The selection tail of `scoreCandidatesNode`: filter by threshold,
stable-sort descending, truncate, and turn everything not kept into a
below-threshold rejection.  Candidates are tagged with their position in
the scored array so that the reference-identity test
`filtered.includes(c)` of the source is modelled exactly. -/
noncomputable def selectCandidates (threshold : ℝ) (maxC : ℕ)
    (scored : List (ℕ × CandidateItem ℝ)) : ScoreResult :=
  let filtered :=
    (sortDesc (fun q => q.2.score) (scored.filter (fun q => threshold ≤ q.2.score))).take maxC
  let kept := filtered.map (fun q => q.1)
  ⟨filtered.map (fun q => q.2),
    (scored.filter (fun q => q.1 ∉ kept)).map
      (fun q => (⟨q.2.url, belowThresholdReason, some q.2.score⟩ : Rejection ℝ))⟩

open scoped Classical in
/-- `scoreCandidatesNode` from `extract-content.ts`.  The embedding service
is an oracle (`embedOne` for the principal text, `embedMany` for the
batch); a `cosineSimilarity` throw propagates as `none`. -/
noncomputable def scoreCandidatesNode (embedOne : String → List ℝ)
    (embedMany : List String → List (List ℝ)) (principalContent : String)
    (analysisUrls analysisContents : List String)
    (similarityThreshold : Option ℝ) (maxCandidates : Option ℕ) : Option ScoreResult :=
  if (validCandidatesOf analysisUrls analysisContents).isEmpty then
    some ⟨[], analysisUrls.map (fun url => ⟨url, emptyContentReason, none⟩)⟩
  else
    match (validCandidatesOf analysisUrls analysisContents).enum.mapM
        (scoreOf (embedOne principalContent)
          (embedMany ((validCandidatesOf analysisUrls analysisContents).map (fun c => c.2)))) with
    | none => none
    | some scored =>
      some (selectCandidates (similarityThreshold.getD 0.2) (maxCandidates.getD 30) scored)

/-! ### Retry policy of `src/trends-master/services/http-utils.ts` -/

/-- What one fetch attempt produced: an HTTP response with a status and a
body, or a transport/timeout failure (a rejected promise). -/
inductive FetchOutcome where
  | response (status : ℕ) (body : String)
  | failure
deriving DecidableEq

/-- The error `fetchWithRetry` can surface. -/
inductive FetchError where
  | httpError (status : ℕ)
  | transport
deriving DecidableEq

/-- `defaultRetryOn` from `http-utils.ts`: 429 or any 5xx. -/
def defaultRetryOn (status : ℕ) : Bool :=
  status == 429 || (decide (500 ≤ status) && decide (status ≤ 599))

/-- `computeDelay` from `http-utils.ts`. -/
def computeDelay (attempt initialDelayMs maxDelayMs : ℕ) : ℕ :=
  min (initialDelayMs * 2 ^ attempt) maxDelayMs

/-- The attempt loop of `fetchWithRetry`.  `remaining` counts how many
further attempts the loop bound still allows (`maxRetries - attempt`);
the result is paired with the total number of attempts performed.  The
`throw` of a non-retryable HTTP error in the source is caught by the
enclosing `try`/`catch`, which stores it in `lastError` and retries while
`attempt < maxRetries`; the model mirrors that control flow exactly. -/
def fetchRetryGo (oracle : ℕ → FetchOutcome) (retryOn : ℕ → Bool) :
    ℕ → ℕ → Option FetchError → Except FetchError String × ℕ
  | attempt, 0, _ =>
    match oracle attempt with
    | .response s b =>
      if 200 ≤ s ∧ s ≤ 299 then (.ok b, attempt + 1)
      else (.error (.httpError s), attempt + 1)
    | .failure => (.error .transport, attempt + 1)
  | attempt, remaining+1, lastError =>
    match oracle attempt with
    | .response s b =>
      if 200 ≤ s ∧ s ≤ 299 then (.ok b, attempt + 1)
      else if retryOn s then fetchRetryGo oracle retryOn (attempt + 1) remaining lastError
      else fetchRetryGo oracle retryOn (attempt + 1) remaining (some (.httpError s))
    | .failure => fetchRetryGo oracle retryOn (attempt + 1) remaining (some .transport)

/-- `fetchWithRetry` from `http-utils.ts`, with the fetch modelled as an
oracle from attempt number to outcome. -/
def fetchWithRetry (oracle : ℕ → FetchOutcome) (retryOn : ℕ → Bool) (maxRetries : ℕ) :
    Except FetchError String × ℕ :=
  fetchRetryGo oracle retryOn 0 maxRetries none

/-! ### DOM application (`applyBlockEditsToHtml` from `apply-edits.ts`) -/

/-- A parsed block from `paragraphs.ts` (`InlinksBlock`), carried by
`ApplyEditsInput` but not read by `applyBlockEditsToHtml`. -/
structure InlinksBlock where
  id : String
  type : String
  tag : String
  text : String
  html : String
  path : String
  containsLink : Bool
  charStart : ℤ
  charEnd : ℤ
deriving DecidableEq

/-- The `BlockEdit` type local to `apply-edits.ts`. -/
structure Inlinks.BlockEdit where
  blockId : String
  targetUrl : String
  anchor : String
  originalBlockText : String
  modifiedBlockText : String
  overwriteBlock : Bool
deriving DecidableEq

/-- The jsdom operations `applyBlockEditsToHtml` performs, abstracted as
oracles over an opaque heap type `Dom` and element references `El`.
Element references alias into the heap, so the mutating operations return
an updated heap.  `blockMap` is the composite of `buildBlockIdMap` and
`Map.get`, fixed once per view before the edit loop. -/
structure DomApi (Dom El : Type) where
  buildDom : String → String → Dom
  getRoot : Dom → String → Option El
  blockMap : Dom → El → String → Option El
  anchorAlreadyLinked : Dom → El → String → Bool
  wrapFirstOccurrence : Dom → El → String → String → Dom × Bool
  setInner : Dom → El → String → Dom
  innerHTML : Dom → El → Option String

/-- The input record of `applyBlockEditsToHtml`. -/
structure ApplyEditsInput where
  htmlContent : String
  blocks : List InlinksBlock
  edits : List Inlinks.BlockEdit
  preserveExistingLinks : Option Bool
  rootId : Option String

/-- The `applied` counter record of `applyBlockEditsToHtml`. -/
structure AppliedCounts where
  totalEdits : ℕ
  appliedLinked : ℕ
  appliedModified : ℕ
  skippedAlreadyLinked : ℕ
  skippedBlockNotFound : ℕ
deriving DecidableEq

/-- The output record of `applyBlockEditsToHtml`. -/
structure ApplyEditsOutput where
  originalHtml : String
  linkedHtml : String
  modifiedHtml : String
  applied : AppliedCounts
deriving DecidableEq

/-- The mutable state of the edit loop: the three DOM heaps and the four
counters. -/
structure ApplyState (Dom : Type) where
  originalDom : Dom
  linkedDom : Dom
  modifiedDom : Dom
  appliedLinked : ℕ
  appliedModified : ℕ
  skippedAlreadyLinked : ℕ
  skippedBlockNotFound : ℕ

/-- One iteration of the edit loop of `applyBlockEditsToHtml`. -/
def applyStep {Dom El : Type} (api : DomApi Dom El) (preserveExistingLinks : Bool)
    (omap lmap mmap : String → Option El) (st : ApplyState Dom)
    (edit : Inlinks.BlockEdit) : ApplyState Dom :=
  match omap edit.blockId, lmap edit.blockId, mmap edit.blockId with
  | some oe, some le, some me =>
    let redMark := "<mark class=\"inlink-highlight-original\">" ++
      escapeHtml edit.anchor ++ "</mark>"
    let od := (api.wrapFirstOccurrence st.originalDom oe edit.anchor redMark).1
    let alreadyLinked := api.anchorAlreadyLinked st.linkedDom le edit.anchor
    let st1 :=
      if alreadyLinked && preserveExistingLinks then
        { st with
            originalDom := od
            skippedAlreadyLinked := st.skippedAlreadyLinked + 1 }
      else
        { st with
            originalDom := od
            linkedDom := api.setInner st.linkedDom le
              (highlightLinkedWordsToHtml edit.modifiedBlockText)
            appliedLinked := st.appliedLinked + 1 }
    { st1 with
      modifiedDom := api.setInner st1.modifiedDom me
        (highlightDiffWordsToHtml ⟨edit.originalBlockText, edit.modifiedBlockText⟩),
      appliedModified := st1.appliedModified + 1 }
  | _, _, _ => { st with skippedBlockNotFound := st.skippedBlockNotFound + 1 }

/-- The edit loop of `applyBlockEditsToHtml`. -/
def applyLoop {Dom El : Type} (api : DomApi Dom El) (preserveExistingLinks : Bool)
    (omap lmap mmap : String → Option El) :
    List Inlinks.BlockEdit → ApplyState Dom → ApplyState Dom
  | [], st => st
  | e :: es, st =>
    applyLoop api preserveExistingLinks omap lmap mmap es
      (applyStep api preserveExistingLinks omap lmap mmap st e)

/-- `applyBlockEditsToHtml` from `apply-edits.ts`: parse three copies,
bail out with the raw input and all-skipped counters when a root is
missing, otherwise run the edit loop and serialize the three views. -/
def applyBlockEditsToHtml {Dom El : Type} (api : DomApi Dom El)
    (input : ApplyEditsInput) : ApplyEditsOutput :=
  let rootId := input.rootId.getD "root"
  let preserveExistingLinks := input.preserveExistingLinks.getD true
  let originalDom := api.buildDom input.htmlContent rootId
  let linkedDom := api.buildDom input.htmlContent rootId
  let modifiedDom := api.buildDom input.htmlContent rootId
  match api.getRoot originalDom rootId, api.getRoot linkedDom rootId,
      api.getRoot modifiedDom rootId with
  | some originalRoot, some linkedRoot, some modifiedRoot =>
    let omap := api.blockMap originalDom originalRoot
    let lmap := api.blockMap linkedDom linkedRoot
    let mmap := api.blockMap modifiedDom modifiedRoot
    let final := applyLoop api preserveExistingLinks omap lmap mmap input.edits
      ⟨originalDom, linkedDom, modifiedDom, 0, 0, 0, 0⟩
    { originalHtml := (api.innerHTML final.originalDom originalRoot).getD input.htmlContent,
      linkedHtml := (api.innerHTML final.linkedDom linkedRoot).getD input.htmlContent,
      modifiedHtml := (api.innerHTML final.modifiedDom modifiedRoot).getD input.htmlContent,
      applied := ⟨input.edits.length, final.appliedLinked, final.appliedModified,
        final.skippedAlreadyLinked, final.skippedBlockNotFound⟩ }
  | _, _, _ =>
    { originalHtml := input.htmlContent,
      linkedHtml := input.htmlContent,
      modifiedHtml := input.htmlContent,
      applied := ⟨input.edits.length, 0, 0, 0, input.edits.length⟩ }

/-! ### Concrete fixtures used in the analyses -/

/-- A concrete principal paragraph block. -/
def cexBlock : PrincipalBlock := ⟨"b1", "paragraph", "A casa grande fica na rua", false⟩

/-- A concrete validated decision whose modified text contains exactly one
markdown link, with a trailing space inside the URL parentheses. -/
def cexDecision : Decision :=
  { ok := true, url := "u1", block_id := "b1", anchor := "casa nova",
    original_block_text := "A casa grande fica na rua",
    modified_block_text := "Na [casa nova](u1 ) tudo muda",
    reason := "ok", overwrite_block := none, seo_metrics := none }

/-- A concrete judge input with a single candidate.  Scores are carried
but never inspected by the judge, so they are taken in `ℚ` here. -/
def cexInput : JudgeInput ℚ :=
  { principalBlocks := some [cexBlock],
    principalContent := "A casa grande fica na rua",
    scoredCandidates := [⟨"u1", "casa nova bonita", 0⟩],
    maxLinks := some 2 }

/-- A placeholder edit used to pre-populate judge states. -/
def dummyEdit : BlockEdit := ⟨"b", "u", "a", "o", "m", true, "j", none⟩

/-- A DOM interface on trivial heap and element types whose root lookup
always fails, exercising the missing-root bail-out path. -/
def nullDomApi : DomApi Unit Unit :=
  ⟨fun _ _ => (), fun _ _ => none, fun _ _ _ => none, fun _ _ _ => false,
   fun d _ _ _ => (d, false), fun d _ _ => d, fun _ _ => none⟩

/-! ### Invariants of the judge state -/

/-- The uniqueness invariant of the judge state: accepted edits are
pairwise distinct in block id, target URL and normalized anchor, and each
of those keys is registered in the corresponding used-set. -/
def JudgeInv {S : Type} (acc : JudgeAcc S) : Prop :=
  (acc.edits.map (fun e => e.blockId)).Nodup ∧
  (acc.edits.map (fun e => e.targetUrl)).Nodup ∧
  (acc.edits.map (fun e => normalizeAnchor e.anchor)).Nodup ∧
  (∀ e ∈ acc.edits, e.blockId ∈ acc.usedBlockIds) ∧
  (∀ e ∈ acc.edits, e.targetUrl ∈ acc.usedUrls) ∧
  (∀ e ∈ acc.edits, normalizeAnchor e.anchor ∈ acc.usedAnchors)

/-! ## Theorems -/

theorem judgeAnchorGates_cases {S : Type} (candidate : CandidateItem S)
    (decision : Decision) (acc : JudgeAcc S) :
    (∃ r, judgeAnchorGates candidate decision acc = rejectWith acc candidate r) ∨
    (judgeAnchorGates candidate decision acc = acceptWith acc candidate decision ∧
      normalizeAnchor decision.anchor ∉ acc.usedAnchors ∧
      decision.block_id ∉ acc.usedBlockIds) := by
  unfold judgeAnchorGates
  by_cases h12 : (anchorTokenOverlap decision.anchor candidate.content).1 <
      (if 4 ≤ (anchorTokenOverlap decision.anchor candidate.content).2 then 2
       else if 2 ≤ (anchorTokenOverlap decision.anchor candidate.content).2 then 1 else 0 : ℕ)
  · rw [if_pos h12]; exact Or.inl ⟨_, rfl⟩
  rw [if_neg h12]
  by_cases h13 : normalizeAnchor decision.anchor = ""
  · rw [if_pos h13]; exact Or.inl ⟨_, rfl⟩
  rw [if_neg h13]
  by_cases h14 : normalizeAnchor decision.anchor ∈ acc.usedAnchors
  · rw [if_pos h14]; exact Or.inl ⟨_, rfl⟩
  rw [if_neg h14]
  by_cases h15 : decision.block_id ∈ acc.usedBlockIds
  · rw [if_pos h15]; exact Or.inl ⟨_, rfl⟩
  rw [if_neg h15]
  exact Or.inr ⟨rfl, h14, h15⟩

theorem judgeAudit_cases {S : Type} (candidate : CandidateItem S)
    (bestBlock : PrincipalBlock) (decision : Decision) (acc : JudgeAcc S) :
    (∃ r, judgeAudit candidate bestBlock decision acc = rejectWith acc candidate r) ∨
    (judgeAudit candidate bestBlock decision acc = acceptWith acc candidate decision ∧
      ensureSingleMarkdownLink decision.modified_block_text candidate.url = true ∧
      normalizeAnchor decision.anchor ∉ acc.usedAnchors ∧
      decision.block_id ∉ acc.usedBlockIds) := by
  unfold judgeAudit
  by_cases h6 : (!decision.ok) = true
  · rw [if_pos h6]; exact Or.inl ⟨_, rfl⟩
  rw [if_neg h6]
  by_cases h7 : decision.block_id ≠ bestBlock.id
  · rw [if_pos h7]; exact Or.inl ⟨_, rfl⟩
  rw [if_neg h7]
  by_cases h8 : jsTrimS decision.original_block_text ≠ jsTrimS bestBlock.text
  · rw [if_pos h8]; exact Or.inl ⟨_, rfl⟩
  rw [if_neg h8]
  by_cases h9 : (!ensureSingleMarkdownLink decision.modified_block_text candidate.url) = true
  · rw [if_pos h9]; exact Or.inl ⟨_, rfl⟩
  rw [if_neg h9]
  by_cases h10 : (!containsSub decision.modified_block_text ("[" ++ decision.anchor ++ "](")) = true
  · rw [if_pos h10]; exact Or.inl ⟨_, rfl⟩
  rw [if_neg h10]
  by_cases h11 : isGenericAnchor decision.anchor = true
  · rw [if_pos h11]; exact Or.inl ⟨_, rfl⟩
  rw [if_neg h11]
  rcases judgeAnchorGates_cases candidate decision acc with ⟨r, hr⟩ | ⟨heq, h14, h15⟩
  · exact Or.inl ⟨r, hr⟩
  · exact Or.inr ⟨heq, by simpa using h9, h14, h15⟩

theorem judgeStep_cases {S : Type} (gen : ℕ → GenOutcome) (hasBlocks : Bool)
    (eligibleBlocks : List PrincipalBlock) (maxLinks : ℤ) (idx : ℕ)
    (candidate : CandidateItem S) (acc : JudgeAcc S) :
    (∃ r, judgeStep gen hasBlocks eligibleBlocks maxLinks idx candidate acc =
      rejectWith acc candidate r) ∨
    (∃ d, judgeStep gen hasBlocks eligibleBlocks maxLinks idx candidate acc =
        acceptWith acc candidate d ∧
      ¬ maxLinks ≤ (acc.edits.length : ℤ) ∧
      candidate.url ∉ acc.usedUrls ∧
      ensureSingleMarkdownLink d.modified_block_text candidate.url = true ∧
      normalizeAnchor d.anchor ∉ acc.usedAnchors ∧
      d.block_id ∉ acc.usedBlockIds) := by
  unfold judgeStep
  by_cases h1 : maxLinks ≤ (acc.edits.length : ℤ)
  · rw [if_pos h1]; exact Or.inl ⟨_, rfl⟩
  rw [if_neg h1]
  by_cases h2 : candidate.url ∈ acc.usedUrls
  · rw [if_pos h2]; exact Or.inl ⟨_, rfl⟩
  rw [if_neg h2]
  by_cases h3 : (!hasBlocks) = true
  · rw [if_pos h3]; exact Or.inl ⟨_, rfl⟩
  rw [if_neg h3]
  by_cases h4 : eligibleBlocks.isEmpty = true
  · rw [if_pos h4]; exact Or.inl ⟨_, rfl⟩
  rw [if_neg h4]
  split
  next hpick => exact Or.inl ⟨_, rfl⟩
  next bestBlock hpick =>
    by_cases h5 : bestBlock.id ∈ acc.usedBlockIds
    · rw [if_pos h5]; exact Or.inl ⟨_, rfl⟩
    rw [if_neg h5]
    split
    next hgen => exact Or.inl ⟨_, rfl⟩
    next hgen => exact Or.inl ⟨_, rfl⟩
    next d hgen =>
      rcases judgeAudit_cases candidate bestBlock d acc with ⟨r, hr⟩ | ⟨heq, h9, h14, h15⟩
      · exact Or.inl ⟨r, hr⟩
      · exact Or.inr ⟨d, heq, h1, h2, h9, h14, h15⟩

theorem nodup_append_single {α : Type} {l : List α} {x : α} (h : l.Nodup)
    (hx : x ∉ l) : (l ++ [x]).Nodup := by
  simp [List.nodup_append, h, hx]

theorem judgeLoop_preserves {S : Type} (gen : ℕ → GenOutcome) (hasBlocks : Bool)
    (eligibleBlocks : List PrincipalBlock) (maxLinks : ℤ) (P : JudgeAcc S → Prop)
    (hrej : ∀ (acc : JudgeAcc S) c r, P acc → P (rejectWith acc c r))
    (hacc : ∀ (acc : JudgeAcc S) (c : CandidateItem S) (d : Decision),
      ¬ maxLinks ≤ (acc.edits.length : ℤ) → c.url ∉ acc.usedUrls →
      ensureSingleMarkdownLink d.modified_block_text c.url = true →
      normalizeAnchor d.anchor ∉ acc.usedAnchors → d.block_id ∉ acc.usedBlockIds →
      P acc → P (acceptWith acc c d)) :
    ∀ (cs : List (CandidateItem S)) (idx : ℕ) (acc : JudgeAcc S), P acc →
      P (judgeLoop gen hasBlocks eligibleBlocks maxLinks idx cs acc) := by
  intro cs
  induction cs with
  | nil => intro idx acc h; exact h
  | cons c cs ih =>
    intro idx acc h
    have hstep : P (judgeStep gen hasBlocks eligibleBlocks maxLinks idx c acc) := by
      rcases judgeStep_cases gen hasBlocks eligibleBlocks maxLinks idx c acc with
        ⟨r, hr⟩ | ⟨d, heq, f1, f2, f3, f4, f5⟩
      · rw [hr]; exact hrej acc c r h
      · rw [heq]; exact hacc acc c d f1 f2 f3 f4 f5 h
    exact ih (idx + 1) _ hstep

theorem judgeLoop_inv {S : Type} (gen : ℕ → GenOutcome) (hasBlocks : Bool)
    (eligibleBlocks : List PrincipalBlock) (maxLinks : ℤ)
    (cs : List (CandidateItem S)) (idx : ℕ) (acc : JudgeAcc S) (h : JudgeInv acc) :
    JudgeInv (judgeLoop gen hasBlocks eligibleBlocks maxLinks idx cs acc) := by
  refine judgeLoop_preserves gen hasBlocks eligibleBlocks maxLinks JudgeInv
    (fun acc c r hP => hP) ?_ cs idx acc h
  intro acc c d _ hurl _ hanch hblk hP
  obtain ⟨n1, n2, n3, m1, m2, m3⟩ := hP
  refine ⟨?_, ?_, ?_, ?_, ?_, ?_⟩
  · rw [acceptWith, List.map_append]
    exact nodup_append_single n1 (fun hin => by
      obtain ⟨e, he, hbe⟩ := List.mem_map.mp hin
      have hbe2 : e.blockId = d.block_id := by simpa [commitEdit] using hbe
      exact hblk (hbe2 ▸ m1 e he))
  · rw [acceptWith, List.map_append]
    exact nodup_append_single n2 (fun hin => by
      obtain ⟨e, he, hbe⟩ := List.mem_map.mp hin
      have hbe2 : e.targetUrl = c.url := by simpa [commitEdit] using hbe
      exact hurl (hbe2 ▸ m2 e he))
  · rw [acceptWith, List.map_append]
    exact nodup_append_single n3 (fun hin => by
      obtain ⟨e, he, hbe⟩ := List.mem_map.mp hin
      have hbe2 : normalizeAnchor e.anchor = normalizeAnchor d.anchor := by
        simpa [commitEdit] using hbe
      exact hanch (hbe2 ▸ m3 e he))
  · intro e he
    rcases List.mem_append.mp he with h1 | h1
    · exact List.mem_append_left _ (m1 e h1)
    · rw [List.mem_singleton.mp h1]
      exact List.mem_append_right _ (List.mem_singleton.mpr rfl)
  · intro e he
    rcases List.mem_append.mp he with h1 | h1
    · exact List.mem_append_left _ (m2 e h1)
    · rw [List.mem_singleton.mp h1]
      exact List.mem_append_right _ (List.mem_singleton.mpr rfl)
  · intro e he
    rcases List.mem_append.mp he with h1 | h1
    · exact List.mem_append_left _ (m3 e h1)
    · rw [List.mem_singleton.mp h1]
      exact List.mem_append_right _ (List.mem_singleton.mpr rfl)

/-- C1.  For every run of the edit-proposal state machine
(`judgeCandidatesNode`), over every generation-oracle behaviour, the
accepted edits are pairwise distinct in all three keys: no two share a
`blockId`, no two share a `targetUrl`, and no two share a normalized
anchor string. -/
theorem judge_accepted_edit_keys_distinct {S : Type} (gen : ℕ → GenOutcome)
    (st : JudgeInput S) :
    ((judgeCandidatesNode gen st).edits.map (fun e => e.blockId)).Nodup ∧
    ((judgeCandidatesNode gen st).edits.map (fun e => e.targetUrl)).Nodup ∧
    ((judgeCandidatesNode gen st).edits.map
      (fun e => normalizeAnchor e.anchor)).Nodup := by
  have h := judgeLoop_inv (S := S) gen
    (0 < (st.principalBlocks.getD []).length)
    (if 0 < (st.principalBlocks.getD []).length then
      (st.principalBlocks.getD []).filter
        (fun b => (b.type == "paragraph" || b.type == "list_item") && !b.containsLink)
     else [])
    (computeMaxLinks st.principalContent st.maxLinks)
    st.scoredCandidates 0 ⟨[], [], [], [], []⟩
    ⟨List.nodup_nil, List.nodup_nil, List.nodup_nil,
      fun _ h => absurd h (List.not_mem_nil _),
      fun _ h => absurd h (List.not_mem_nil _),
      fun _ h => absurd h (List.not_mem_nil _)⟩
  exact ⟨h.1, h.2.1, h.2.2.1⟩

theorem ensureSingle_spec {m u : String} (h : ensureSingleMarkdownLink m u = true) :
    (linkMatches m).length = 1 ∧ ∀ p ∈ linkMatches m, jsTrimS p.2 = u := by
  unfold ensureSingleMarkdownLink at h
  rcases hm : linkMatches m with _ | ⟨⟨t, url⟩, rest⟩
  · rw [hm] at h; simp at h
  · rcases rest with _ | ⟨q, rest2⟩
    · rw [hm] at h
      simp only [decide_eq_true_eq] at h
      refine ⟨rfl, ?_⟩
      intro p hp
      rw [List.mem_singleton.mp hp]
      exact h
    · rw [hm] at h; simp at h

theorem judgeLoop_single_link {S : Type} (gen : ℕ → GenOutcome) (hasBlocks : Bool)
    (eligibleBlocks : List PrincipalBlock) (maxLinks : ℤ)
    (cs : List (CandidateItem S)) (idx : ℕ) (acc : JudgeAcc S)
    (h : ∀ e ∈ acc.edits, ensureSingleMarkdownLink e.modifiedBlockText e.targetUrl = true) :
    ∀ e ∈ (judgeLoop gen hasBlocks eligibleBlocks maxLinks idx cs acc).edits,
      ensureSingleMarkdownLink e.modifiedBlockText e.targetUrl = true := by
  refine judgeLoop_preserves gen hasBlocks eligibleBlocks maxLinks
    (fun acc => ∀ e ∈ acc.edits, ensureSingleMarkdownLink e.modifiedBlockText e.targetUrl = true)
    (fun acc c r hP => hP) ?_ cs idx acc h
  intro acc c d _ _ hens _ _ hP e he
  rcases List.mem_append.mp he with h1 | h1
  · exact hP e h1
  · rw [List.mem_singleton.mp h1]
    exact hens

/-- C6 counterexample.  A complete run of the judge in which an edit is
accepted whose `modifiedBlockText` has exactly one markdown-link match,
but the URL captured by that match is `"u1 "` — with a trailing space —
while the Edit's `targetUrl` is `"u1"`: the link URL does not exactly
equal the target URL, because the gate compares the captured URL only
after trimming. -/
theorem judge_single_link_exact_url_cex :
    (judgeCandidatesNode (fun _ => GenOutcome.parsed cexDecision) cexInput).edits =
      [⟨"b1", "u1", "casa nova", "A casa grande fica na rua",
        "Na [casa nova](u1 ) tudo muda", true, "ok", none⟩] ∧
    linkMatches "Na [casa nova](u1 ) tudo muda" = [("casa nova", "u1 ")] ∧
    "u1 " ≠ "u1" := by decide

/-- C6 (amended).  For every accepted Edit of every run of the judge, the
`modifiedBlockText` contains exactly one markdown link construct, and
that link's captured URL equals the Edit's `targetUrl` after trimming
surrounding whitespace. -/
theorem judge_single_link_trimmed {S : Type} (gen : ℕ → GenOutcome)
    (st : JudgeInput S) :
    ∀ e ∈ (judgeCandidatesNode gen st).edits,
      (linkMatches e.modifiedBlockText).length = 1 ∧
      ∀ p ∈ linkMatches e.modifiedBlockText, jsTrimS p.2 = e.targetUrl := by
  intro e he
  have h := judgeLoop_single_link (S := S) gen
    (0 < (st.principalBlocks.getD []).length)
    (if 0 < (st.principalBlocks.getD []).length then
      (st.principalBlocks.getD []).filter
        (fun b => (b.type == "paragraph" || b.type == "list_item") && !b.containsLink)
     else [])
    (computeMaxLinks st.principalContent st.maxLinks)
    st.scoredCandidates 0 ⟨[], [], [], [], []⟩
    (fun _ hx => absurd hx (List.not_mem_nil _))
  exact ensureSingle_spec (h e he)

/-- Witness for C6: the theorem applied to a concrete accepted edit. -/
theorem judge_single_link_trimmed_witness :
    (linkMatches "Na [casa nova](u1 ) tudo muda").length = 1 ∧
    ∀ p ∈ linkMatches "Na [casa nova](u1 ) tudo muda", jsTrimS p.2 = "u1" :=
  judge_single_link_trimmed (fun _ => GenOutcome.parsed cexDecision) cexInput
    ⟨"b1", "u1", "casa nova", "A casa grande fica na rua",
      "Na [casa nova](u1 ) tudo muda", true, "ok", none⟩ (by decide)

theorem computeMaxLinks_nonneg (content : String) (explicit : Option ℚ) :
    0 ≤ computeMaxLinks content explicit := by
  have hd : (0 : ℤ) ≤ defaultMaxLinks content :=
    le_trans (by norm_num) (le_max_left 2 _)
  cases explicit with
  | none => exact hd
  | some e =>
    have hs : computeMaxLinks content (some e) =
        if 0 < e then Int.floor e else defaultMaxLinks content := rfl
    by_cases h : 0 < e
    · rw [hs, if_pos h]
      exact Int.floor_nonneg.mpr (le_of_lt h)
    · rw [hs, if_neg h]
      exact hd

theorem judgeLoop_length_le {S : Type} (gen : ℕ → GenOutcome) (hasBlocks : Bool)
    (eligibleBlocks : List PrincipalBlock) (maxLinks : ℤ)
    (cs : List (CandidateItem S)) (idx : ℕ) (acc : JudgeAcc S)
    (h : (acc.edits.length : ℤ) ≤ maxLinks) :
    ((judgeLoop gen hasBlocks eligibleBlocks maxLinks idx cs acc).edits.length : ℤ) ≤
      maxLinks := by
  refine judgeLoop_preserves gen hasBlocks eligibleBlocks maxLinks
    (fun acc => (acc.edits.length : ℤ) ≤ maxLinks) (fun acc c r hP => hP) ?_ cs idx acc h
  intro acc c d hlen _ _ _ _ _
  have hlt : (acc.edits.length : ℤ) < maxLinks := lt_of_not_le hlen
  simp only [acceptWith, List.length_append, List.length_singleton]
  push_cast
  omega

theorem judgeStep_density {S : Type} (gen : ℕ → GenOutcome) (hasBlocks : Bool)
    (eligibleBlocks : List PrincipalBlock) (maxLinks : ℤ) (idx : ℕ)
    (candidate : CandidateItem S) (acc : JudgeAcc S)
    (h : maxLinks ≤ (acc.edits.length : ℤ)) :
    judgeStep gen hasBlocks eligibleBlocks maxLinks idx candidate acc =
      rejectWith acc candidate densityReason := by
  unfold judgeStep
  rw [if_pos h]

theorem judgeLoop_density {S : Type} (gen : ℕ → GenOutcome) (hasBlocks : Bool)
    (eligibleBlocks : List PrincipalBlock) (maxLinks : ℤ) :
    ∀ (cs : List (CandidateItem S)) (idx : ℕ) (acc : JudgeAcc S),
      maxLinks ≤ (acc.edits.length : ℤ) →
      judgeLoop gen hasBlocks eligibleBlocks maxLinks idx cs acc =
        { acc with rejected := (acc.rejected ++
            cs.map (fun c => ⟨c.url, densityReason, some c.score⟩)) } := by
  intro cs
  induction cs with
  | nil => intro idx acc h; simp [judgeLoop]
  | cons c cs ih =>
    intro idx acc h
    simp only [judgeLoop]
    rw [judgeStep_density gen hasBlocks eligibleBlocks maxLinks idx c acc h]
    rw [ih (idx + 1) (rejectWith acc c densityReason) h]
    simp [rejectWith, List.append_assoc]

/-- C5.  In every run of the judge: the number of accepted edits never
exceeds the link budget `computeMaxLinks`; with no explicit budget the
budget is `max 2 (ceil (wordCount / 1000 * 4))`; and once the edit count
has reached the budget, the loop rejects every remaining candidate with
the density-limit reason. -/
theorem judge_density_bound {S : Type} (gen : ℕ → GenOutcome) (st : JudgeInput S) :
    ((judgeCandidatesNode gen st).edits.length : ℤ) ≤
      computeMaxLinks st.principalContent st.maxLinks ∧
    (∀ content, computeMaxLinks content none =
      max 2 (Int.ceil ((jsWordCount content : ℚ) / 1000 * 4))) ∧
    (∀ (hasBlocks : Bool) (eligibleBlocks : List PrincipalBlock) (idx : ℕ)
        (cs : List (CandidateItem S)) (acc : JudgeAcc S),
      computeMaxLinks st.principalContent st.maxLinks ≤ (acc.edits.length : ℤ) →
      judgeLoop gen hasBlocks eligibleBlocks
          (computeMaxLinks st.principalContent st.maxLinks) idx cs acc =
        { acc with rejected := (acc.rejected ++
            cs.map (fun c => ⟨c.url, densityReason, some c.score⟩)) }) := by
  refine ⟨?_, fun content => rfl, ?_⟩
  · exact judgeLoop_length_le gen
      (0 < (st.principalBlocks.getD []).length)
      (if 0 < (st.principalBlocks.getD []).length then
        (st.principalBlocks.getD []).filter
          (fun b => (b.type == "paragraph" || b.type == "list_item") && !b.containsLink)
       else [])
      (computeMaxLinks st.principalContent st.maxLinks)
      st.scoredCandidates 0 ⟨[], [], [], [], []⟩
      (by simpa using computeMaxLinks_nonneg st.principalContent st.maxLinks)
  · intro hasBlocks eligibleBlocks idx cs acc h
    exact judgeLoop_density gen hasBlocks eligibleBlocks _ cs idx acc h

/-- Witness for C5: the bound at a concrete run, and the density-suffix
behaviour from a state already holding two edits against a budget of
two. -/
theorem judge_density_bound_witness :
    ((judgeCandidatesNode (fun _ => GenOutcome.parsed cexDecision) cexInput).edits.length : ℤ) ≤
      computeMaxLinks cexInput.principalContent cexInput.maxLinks ∧
    judgeLoop (S := ℚ) (fun _ => GenOutcome.parsed cexDecision) true []
        (computeMaxLinks cexInput.principalContent cexInput.maxLinks) 0
        [⟨"u2", "x", 0⟩] ⟨[dummyEdit, dummyEdit], [], [], [], []⟩ =
      ⟨[dummyEdit, dummyEdit], [⟨"u2", densityReason, some 0⟩], [], [], []⟩ := by
  constructor
  · exact (judge_density_bound (fun _ => GenOutcome.parsed cexDecision) cexInput).1
  · have h := (judge_density_bound (fun _ => GenOutcome.parsed cexDecision) cexInput).2.2
      true [] 0 [⟨"u2", "x", 0⟩] ⟨[dummyEdit, dummyEdit], [], [], [], []⟩ (by decide)
    simpa using h

theorem blockOverlapScore_nonneg (cand : List String) (b : PrincipalBlock) :
    0 ≤ blockOverlapScore cand b := Int.ofNat_nonneg _

theorem pickLoop_resolve (cand : List String) :
    ∀ (bs : List PrincipalBlock) (st : Option PrincipalBlock × ℤ),
      pickBestBlockLoop cand bs st = resolvePick st (firstMaxBlock cand bs) := by
  intro bs
  induction bs with
  | nil => intro st; rfl
  | cons b bs ih =>
    intro st
    simp only [pickBestBlockLoop, firstMaxBlock]
    by_cases ht : (normalizeTokens b.text).length = 0
    · rw [if_pos ht, if_pos ht, ih]
    · rw [if_neg ht, if_neg ht]
      cases hfm : firstMaxBlock cand bs with
      | none =>
        simp only [ih, hfm, challengeMax, resolvePick]
      | some p =>
        obtain ⟨b2, s2⟩ := p
        simp only [ih, hfm, challengeMax, resolvePick]
        by_cases h2 : s2 ≤ blockOverlapScore cand b
        · rw [if_pos h2]
          simp only [resolvePick]
          all_goals split_ifs <;> first | rfl | (exfalso; omega)
        · rw [if_neg h2]
          simp only [resolvePick]
          all_goals split_ifs <;> first | rfl | (exfalso; omega)

theorem firstMaxBlock_none_iff (cand : List String) :
    ∀ bs : List PrincipalBlock,
      firstMaxBlock cand bs = none ↔ ∀ b ∈ bs, normalizeTokens b.text = [] := by
  intro bs
  induction bs with
  | nil => simp [firstMaxBlock]
  | cons b bs ih =>
    simp only [firstMaxBlock]
    by_cases ht : (normalizeTokens b.text).length = 0
    · rw [if_pos ht]
      rw [ih]
      constructor
      · intro h b2 hb2
        rcases List.mem_cons.mp hb2 with h2 | h2
        · subst h2; exact List.length_eq_zero.mp ht
        · exact h b2 h2
      · intro h b2 hb2
        exact h b2 (List.mem_cons_of_mem b hb2)
    · rw [if_neg ht]
      constructor
      · intro h
        exfalso
        cases hfm : firstMaxBlock cand bs with
        | none => rw [hfm] at h; simp [challengeMax] at h
        | some p =>
          obtain ⟨b2, s2⟩ := p
          rw [hfm] at h
          simp only [challengeMax] at h
          split_ifs at h
      · intro h
        exact absurd (List.length_eq_zero.mpr (h b (List.mem_cons_self b bs))) ht

theorem firstMaxBlock_spec (cand : List String) :
    ∀ (bs : List PrincipalBlock) (b : PrincipalBlock) (s : ℤ),
      firstMaxBlock cand bs = some (b, s) →
      b ∈ bs ∧ (normalizeTokens b.text).length ≠ 0 ∧ s = blockOverlapScore cand b ∧
      (∀ b2 ∈ bs, (normalizeTokens b2.text).length ≠ 0 → blockOverlapScore cand b2 ≤ s) := by
  intro bs
  induction bs with
  | nil => intro b s h; simp [firstMaxBlock] at h
  | cons c bs ih =>
    intro b s h
    simp only [firstMaxBlock] at h
    by_cases ht : (normalizeTokens c.text).length = 0
    · rw [if_pos ht] at h
      obtain ⟨hmem, hne, hs, hmax⟩ := ih b s h
      refine ⟨List.mem_cons_of_mem c hmem, hne, hs, ?_⟩
      intro b2 hb2 hb2t
      rcases List.mem_cons.mp hb2 with h2 | h2
      · subst h2; exact absurd ht hb2t
      · exact hmax b2 h2 hb2t
    · rw [if_neg ht] at h
      cases hfm : firstMaxBlock cand bs with
      | none =>
        rw [hfm] at h
        simp only [challengeMax, Option.some.injEq, Prod.mk.injEq] at h
        obtain ⟨rfl, rfl⟩ := h
        refine ⟨List.mem_cons_self c bs, ht, rfl, ?_⟩
        intro b2 hb2 hb2t
        rcases List.mem_cons.mp hb2 with h2 | h2
        · subst h2; exact le_refl _
        · exact absurd (List.length_eq_zero.mpr
            ((firstMaxBlock_none_iff cand bs).mp hfm b2 h2)) hb2t
      | some p =>
        obtain ⟨b2max, s2⟩ := p
        rw [hfm] at h
        simp only [challengeMax] at h
        obtain ⟨hmem2, hne2, hs2, hmax2⟩ := ih b2max s2 hfm
        by_cases h2 : s2 ≤ blockOverlapScore cand c
        · rw [if_pos h2] at h
          simp only [Option.some.injEq, Prod.mk.injEq] at h
          obtain ⟨rfl, rfl⟩ := h
          refine ⟨List.mem_cons_self c bs, ht, rfl, ?_⟩
          intro b3 hb3 hb3t
          rcases List.mem_cons.mp hb3 with h3 | h3
          · subst h3; exact le_refl _
          · exact le_trans (hmax2 b3 h3 hb3t) h2
        · rw [if_neg h2] at h
          simp only [Option.some.injEq, Prod.mk.injEq] at h
          obtain ⟨rfl, rfl⟩ := h
          refine ⟨List.mem_cons_of_mem c hmem2, hne2, hs2, ?_⟩
          intro b3 hb3 hb3t
          rcases List.mem_cons.mp hb3 with h3 | h3
          · subst h3; exact le_of_lt (lt_of_not_le h2)
          · exact hmax2 b3 h3 hb3t

theorem firstMaxBlock_first (cand : List String) :
    ∀ (bs : List PrincipalBlock) (b : PrincipalBlock) (s : ℤ),
      firstMaxBlock cand bs = some (b, s) →
      ∃ l1 l2, bs = l1 ++ b :: l2 ∧
        ∀ b1 ∈ l1, (normalizeTokens b1.text).length = 0 ∨ blockOverlapScore cand b1 < s := by
  intro bs
  induction bs with
  | nil => intro b s h; simp [firstMaxBlock] at h
  | cons c bs ih =>
    intro b s h
    simp only [firstMaxBlock] at h
    by_cases ht : (normalizeTokens c.text).length = 0
    · rw [if_pos ht] at h
      obtain ⟨l1, l2, heq, hpre⟩ := ih b s h
      refine ⟨c :: l1, l2, by rw [heq]; rfl, ?_⟩
      intro b1 hb1
      rcases List.mem_cons.mp hb1 with h1 | h1
      · subst h1; exact Or.inl ht
      · exact hpre b1 h1
    · rw [if_neg ht] at h
      cases hfm : firstMaxBlock cand bs with
      | none =>
        rw [hfm] at h
        simp only [challengeMax, Option.some.injEq, Prod.mk.injEq] at h
        obtain ⟨rfl, rfl⟩ := h
        exact ⟨[], bs, rfl, by simp⟩
      | some p =>
        obtain ⟨b2, s2⟩ := p
        rw [hfm] at h
        simp only [challengeMax] at h
        by_cases h2 : s2 ≤ blockOverlapScore cand c
        · rw [if_pos h2] at h
          simp only [Option.some.injEq, Prod.mk.injEq] at h
          obtain ⟨rfl, rfl⟩ := h
          exact ⟨[], bs, rfl, by simp⟩
        · rw [if_neg h2] at h
          simp only [Option.some.injEq, Prod.mk.injEq] at h
          obtain ⟨rfl, rfl⟩ := h
          obtain ⟨l1, l2, heq, hpre⟩ := ih b2 s2 hfm
          refine ⟨c :: l1, l2, by rw [heq]; rfl, ?_⟩
          intro b1 hb1
          rcases List.mem_cons.mp hb1 with h1 | h1
          · subst h1; exact Or.inr (lt_of_not_le h2)
          · exact hpre b1 h1

/-- C2 counterexample.  A candidate whose normalized token set has empty
overlap with the single block (the overlap score is 0) still gets that
block selected: `pickBestBlock` only returns `none` when the candidate
token set itself is empty, because the loop starts from score `-1`.
Moreover, the loop counts token occurrences rather than token types: a
block with one overlapping type occurring four times beats a block with
two overlapping types, so the highest-type-count block is not selected. -/
theorem pickBestBlock_zero_overlap_cex :
    blockOverlapScore (normalizeTokens "xyzw abcd")
      ⟨"b1", "paragraph", "qqq www", false⟩ = 0 ∧
    pickBestBlock [⟨"b1", "paragraph", "qqq www", false⟩] "xyzw abcd" =
      some ⟨"b1", "paragraph", "qqq www", false⟩ ∧
    ((normalizeTokens "casa casa casa casa").dedup.countP
      (fun t => (normalizeTokens "casa jardim").contains t)) = 1 ∧
    ((normalizeTokens "casa jardim flores").dedup.countP
      (fun t => (normalizeTokens "casa jardim").contains t)) = 2 ∧
    pickBestBlock
      [⟨"a", "paragraph", "casa casa casa casa", false⟩,
       ⟨"b", "paragraph", "casa jardim flores", false⟩] "casa jardim" =
      some ⟨"a", "paragraph", "casa casa casa casa", false⟩ := by decide

/-- C2 (amended).  `pickBestBlock` selects no block (and the judge then
rejects the candidate with the no-target-block reason) exactly when the
candidate's normalized token set is empty or every block's token list is
empty; otherwise it returns the block with the highest overlap score —
counting each occurrence of a block token that lies in the candidate
token set, a count that may be zero — with ties resolved by earliest
index. -/
theorem pickBestBlock_spec (blocks : List PrincipalBlock) (c : String) :
    (pickBestBlock blocks c = none ↔
      normalizeTokens c = [] ∨ ∀ b ∈ blocks, normalizeTokens b.text = []) ∧
    (∀ b, pickBestBlock blocks c = some b →
      b ∈ blocks ∧ normalizeTokens b.text ≠ [] ∧
      (∀ b2 ∈ blocks, normalizeTokens b2.text ≠ [] →
        blockOverlapScore (normalizeTokens c) b2 ≤ blockOverlapScore (normalizeTokens c) b) ∧
      ∃ l1 l2, blocks = l1 ++ b :: l2 ∧
        ∀ b1 ∈ l1, normalizeTokens b1.text = [] ∨
          blockOverlapScore (normalizeTokens c) b1 <
            blockOverlapScore (normalizeTokens c) b) := by
  have hdef : pickBestBlock blocks c =
      if (normalizeTokens c).isEmpty then none
      else (pickBestBlockLoop (normalizeTokens c) blocks (none, -1)).1 := rfl
  rw [hdef]
  by_cases hc : (normalizeTokens c).isEmpty
  · rw [if_pos hc]
    constructor
    · exact ⟨fun _ => Or.inl (List.isEmpty_iff.mp hc), fun _ => rfl⟩
    · intro b hb; exact absurd hb (by simp)
  · rw [if_neg hc]
    have hcne : normalizeTokens c ≠ [] := fun h => hc (List.isEmpty_iff.mpr h)
    rw [pickLoop_resolve]
    cases hfm : firstMaxBlock (normalizeTokens c) blocks with
    | none =>
      constructor
      · constructor
        · intro _
          exact Or.inr (fun b hb => (firstMaxBlock_none_iff _ blocks).mp hfm b hb)
        · intro _; rfl
      · intro b hb; simp [resolvePick] at hb
    | some p =>
      obtain ⟨bm, sm⟩ := p
      obtain ⟨hmem, hne, hs, hmax⟩ := firstMaxBlock_spec _ blocks bm sm hfm
      have hresolve :
          resolvePick ((none : Option PrincipalBlock), (-1 : ℤ)) (some (bm, sm)) =
            (some bm, sm) := by
        simp only [resolvePick]
        rw [if_pos]
        rw [hs]
        exact lt_of_lt_of_le (by norm_num) (blockOverlapScore_nonneg _ _)
      rw [hresolve]
      constructor
      · constructor
        · intro h; simp at h
        · intro h
          rcases h with h | h
          · exact absurd h hcne
          · exact absurd (List.length_eq_zero.mpr (h bm hmem)) hne
      · intro b hb
        have hbm : bm = b := by simpa using hb
        subst hbm
        refine ⟨hmem, fun hz => hne (List.length_eq_zero.mpr hz), ?_, ?_⟩
        · intro b2 hb2 hb2ne
          have h2 := hmax b2 hb2 (fun hz => hb2ne (List.length_eq_zero.mp hz))
          rwa [hs] at h2
        · obtain ⟨l1, l2, heq, hpre⟩ := firstMaxBlock_first _ blocks bm sm hfm
          refine ⟨l1, l2, heq, ?_⟩
          intro b1 hb1
          rcases hpre b1 hb1 with h1 | h1
          · exact Or.inl (List.length_eq_zero.mp h1)
          · exact Or.inr (hs ▸ h1)

/-- Witness for C2: the amended characterisation applied to a concrete
selection. -/
theorem pickBestBlock_spec_witness :
    cexBlock ∈ [cexBlock] ∧ normalizeTokens cexBlock.text ≠ [] ∧
    (∀ b2 ∈ [cexBlock], normalizeTokens b2.text ≠ [] →
      blockOverlapScore (normalizeTokens "casa nova bonita") b2 ≤
        blockOverlapScore (normalizeTokens "casa nova bonita") cexBlock) ∧
    ∃ l1 l2, [cexBlock] = l1 ++ cexBlock :: l2 ∧
      ∀ b1 ∈ l1, normalizeTokens b1.text = [] ∨
        blockOverlapScore (normalizeTokens "casa nova bonita") b1 <
          blockOverlapScore (normalizeTokens "casa nova bonita") cexBlock :=
  (pickBestBlock_spec [cexBlock] "casa nova bonita").2 cexBlock (by decide)

/-- C8.  For equal-length, non-empty vectors, if either accumulated
squared norm is zero then `cosineSimilarity` returns exactly `some 0`
(the real-valued model of "0, never NaN/undefined"), and the division
expression is produced only when both squared norms are non-zero. -/
theorem cosineSimilarity_zero_norm (a b : List ℝ) (hlen : a.length = b.length)
    (hne : a ≠ []) :
    ((sumSquares a = 0 ∨ sumSquares b = 0) → cosineSimilarity a b = some 0) ∧
    (cosineSimilarity a b = some 0 ∨ (sumSquares a ≠ 0 ∧ sumSquares b ≠ 0 ∧
      cosineSimilarity a b = some (dotList a b /
        (Real.sqrt (sumSquares a) * Real.sqrt (sumSquares b))))) := by
  have hnl : ¬ a.length ≠ b.length := fun hx => hx hlen
  constructor
  · intro h
    unfold cosineSimilarity
    rw [if_neg hnl, if_pos h]
  · by_cases h : sumSquares a = 0 ∨ sumSquares b = 0
    · left
      unfold cosineSimilarity
      rw [if_neg hnl, if_pos h]
    · right
      push_neg at h
      refine ⟨h.1, h.2, ?_⟩
      unfold cosineSimilarity
      rw [if_neg hnl, if_neg (by push_neg; exact h)]

/-- Witness for C8: the zero vector yields similarity exactly 0. -/
theorem cosineSimilarity_zero_norm_witness :
    cosineSimilarity [(0 : ℝ)] [(0 : ℝ)] = some 0 :=
  (cosineSimilarity_zero_norm [(0 : ℝ)] [(0 : ℝ)] rfl (by simp)).1
    (Or.inl (by simp [sumSquares]))

/-- C4.  Evaluating the embedded `fetchWithRetry` at a fetch that always
returns HTTP 404 with the default policy (`maxRetries = 3`): although
`defaultRetryOn 404 = false`, the call performs 4 attempts — the thrown
HTTP error is caught by the enclosing `try`/`catch`, which retries any
error while `attempt < maxRetries` — and only fails after the retries are
exhausted.  With `maxRetries = 0` the same input fails after a single
attempt, showing the extra attempts are retries of the 404. -/
theorem fetchWithRetry_404_retries :
    fetchWithRetry (fun _ => FetchOutcome.response 404 "") defaultRetryOn 3 =
      (Except.error (FetchError.httpError 404), 4) ∧
    defaultRetryOn 404 = false ∧
    fetchWithRetry (fun _ => FetchOutcome.response 404 "") defaultRetryOn 0 =
      (Except.error (FetchError.httpError 404), 1) :=
  ⟨rfl, rfl, rfl⟩

/-- C7 counterexample.  With the original text equal to the literal
sentinel named by the claim, `"[new excerpt]"`, the renderer does *not*
mark all tokens: the code's sentinel is the Portuguese string
`"[Trecho novo]"`, so the English literal is diffed normally and the
shared token stays unmarked. -/
theorem highlightDiff_sentinel_cex :
    highlightDiffWordsToHtml ⟨"[new excerpt]", "excerpt]"⟩ = "excerpt]" ∧
    allMarkedRender "excerpt]" =
      "<mark class=\"inlink-highlight-modified\">excerpt]</mark>" ∧
    highlightDiffWordsToHtml ⟨"[new excerpt]", "excerpt]"⟩ ≠ allMarkedRender "excerpt]" := by
  decide

/-- C7 (amended).  Whenever the original block text has no tokens after
normalization, or equals the sentinel `"[Trecho novo]"`, the diff
renderer wraps every token of the modified text in the changed-token
marker: the output is exactly the all-marked rendering. -/
theorem highlightDiff_all_marked (orig mod : String)
    (h : tokenize orig = [] ∨ normalizeWhitespace orig = "[Trecho novo]") :
    highlightDiffWordsToHtml ⟨orig, mod⟩ = allMarkedRender mod := by
  have hha : (tokenize orig).length = 0 ∨ normalizeWhitespace orig = "[Trecho novo]" := by
    rcases h with h | h
    · exact Or.inl (by rw [h]; rfl)
    · exact Or.inr h
  simp only [highlightDiffWordsToHtml, allMarkedRender]
  have hmap : ∀ p : ℕ × String,
      (if ((tokenize orig).length = 0 ∨ normalizeWhitespace orig = "[Trecho novo]") ∨
          !((if (tokenize orig).length = 0 ∨ normalizeWhitespace orig = "[Trecho novo]" then
              List.replicate (tokenize mod).length false
            else lcsUnchangedMask (tokenize orig) (tokenize mod)).getD p.1 false) then
        hOpen ++ escapeHtml p.2 ++ hClose
      else escapeHtml p.2) = hOpen ++ escapeHtml p.2 ++ hClose :=
    fun p => if_pos (Or.inl hha)
  rw [List.map_congr_left (fun p _ => hmap p)]
  rw [show (fun p : ℕ × String => hOpen ++ escapeHtml p.2 ++ hClose) =
    ((fun t => hOpen ++ escapeHtml t ++ hClose) ∘ Prod.snd) from rfl]
  rw [← List.map_map, List.enum_map_snd]

/-- Witness for C7: an empty original and a markdown-bearing modified
text, with every token marked in the output. -/
theorem highlightDiff_all_marked_witness :
    tokenize "" = [] ∧
    highlightDiffWordsToHtml ⟨"", "veja [casa nova](u1)"⟩ =
      allMarkedRender "veja [casa nova](u1)" :=
  ⟨by decide, highlightDiff_all_marked "" "veja [casa nova](u1)" (Or.inl (by decide))⟩

/-- C9.  When the root container cannot be found in the three parsed
copies (they are parses of the same input, so one lookup decides all
three), `applyBlockEditsToHtml` returns the raw input as all three views,
counts every edit as skipped-block-not-found, and leaves every other
counter at zero. -/
theorem applyBlockEdits_missing_root {Dom El : Type} (api : DomApi Dom El)
    (input : ApplyEditsInput)
    (h : api.getRoot (api.buildDom input.htmlContent (input.rootId.getD "root"))
      (input.rootId.getD "root") = none) :
    applyBlockEditsToHtml api input =
      ⟨input.htmlContent, input.htmlContent, input.htmlContent,
        ⟨input.edits.length, 0, 0, 0, input.edits.length⟩⟩ := by
  simp only [applyBlockEditsToHtml, h]

/-- Witness for C9: the missing-root bail-out on a concrete input. -/
theorem applyBlockEdits_missing_root_witness :
    applyBlockEditsToHtml nullDomApi
      ⟨"<p>x</p>", [], [⟨"b", "u", "a", "o", "m", true⟩], none, none⟩ =
      ⟨"<p>x</p>", "<p>x</p>", "<p>x</p>", ⟨1, 0, 0, 0, 1⟩⟩ :=
  applyBlockEdits_missing_root nullDomApi _ rfl

theorem applyStep_counts {Dom El : Type} (api : DomApi Dom El) (pres : Bool)
    (omap lmap mmap : String → Option El) (st : ApplyState Dom)
    (e : Inlinks.BlockEdit) :
    (applyStep api pres omap lmap mmap st e).appliedModified +
        (applyStep api pres omap lmap mmap st e).skippedBlockNotFound =
      st.appliedModified + st.skippedBlockNotFound + 1 ∧
    (applyStep api pres omap lmap mmap st e).appliedLinked +
        (applyStep api pres omap lmap mmap st e).skippedAlreadyLinked +
        (applyStep api pres omap lmap mmap st e).skippedBlockNotFound =
      st.appliedLinked + st.skippedAlreadyLinked + st.skippedBlockNotFound + 1 := by
  unfold applyStep
  rcases omap e.blockId with _ | oe
  · simp; omega
  rcases lmap e.blockId with _ | le
  · simp; omega
  rcases mmap e.blockId with _ | me
  · simp; omega
  dsimp only
  split_ifs <;> first | omega | (simp; omega)

theorem applyLoop_counts {Dom El : Type} (api : DomApi Dom El) (pres : Bool)
    (omap lmap mmap : String → Option El) :
    ∀ (es : List Inlinks.BlockEdit) (st : ApplyState Dom),
      (applyLoop api pres omap lmap mmap es st).appliedModified +
          (applyLoop api pres omap lmap mmap es st).skippedBlockNotFound =
        st.appliedModified + st.skippedBlockNotFound + es.length ∧
      (applyLoop api pres omap lmap mmap es st).appliedLinked +
          (applyLoop api pres omap lmap mmap es st).skippedAlreadyLinked +
          (applyLoop api pres omap lmap mmap es st).skippedBlockNotFound =
        st.appliedLinked + st.skippedAlreadyLinked + st.skippedBlockNotFound + es.length := by
  intro es
  induction es with
  | nil => intro st; simp [applyLoop]
  | cons e es ih =>
    intro st
    simp only [applyLoop, List.length_cons]
    obtain ⟨ha, hb⟩ := ih (applyStep api pres omap lmap mmap st e)
    obtain ⟨hc, hd⟩ := applyStep_counts api pres omap lmap mmap st e
    constructor <;> omega

/-- C10.  The counters of `applyBlockEditsToHtml` are mutually
consistent on every input and DOM behaviour: `totalEdits` is the number
of input edits, `appliedModified + skippedBlockNotFound = totalEdits`,
and `appliedLinked + skippedAlreadyLinked + skippedBlockNotFound =
totalEdits`. -/
theorem applyBlockEdits_counters_consistent {Dom El : Type} (api : DomApi Dom El)
    (input : ApplyEditsInput) :
    (applyBlockEditsToHtml api input).applied.totalEdits = input.edits.length ∧
    (applyBlockEditsToHtml api input).applied.appliedModified +
        (applyBlockEditsToHtml api input).applied.skippedBlockNotFound =
      (applyBlockEditsToHtml api input).applied.totalEdits ∧
    (applyBlockEditsToHtml api input).applied.appliedLinked +
        (applyBlockEditsToHtml api input).applied.skippedAlreadyLinked +
        (applyBlockEditsToHtml api input).applied.skippedBlockNotFound =
      (applyBlockEditsToHtml api input).applied.totalEdits := by
  unfold applyBlockEditsToHtml
  cases hg : api.getRoot (api.buildDom input.htmlContent (input.rootId.getD "root"))
      (input.rootId.getD "root") with
  | none => simp [hg]
  | some root =>
    simp only [hg]
    obtain ⟨ha, hb⟩ := applyLoop_counts api (input.preserveExistingLinks.getD true)
      (api.blockMap (api.buildDom input.htmlContent (input.rootId.getD "root")) root)
      (api.blockMap (api.buildDom input.htmlContent (input.rootId.getD "root")) root)
      (api.blockMap (api.buildDom input.htmlContent (input.rootId.getD "root")) root)
      input.edits
      ⟨api.buildDom input.htmlContent (input.rootId.getD "root"),
       api.buildDom input.htmlContent (input.rootId.getD "root"),
       api.buildDom input.htmlContent (input.rootId.getD "root"), 0, 0, 0, 0⟩
    simp only [ApplyState.appliedModified, ApplyState.skippedBlockNotFound,
      ApplyState.appliedLinked, ApplyState.skippedAlreadyLinked] at ha hb
    refine ⟨trivial, ?_, ?_⟩ <;> omega

/-- A successful `List.mapM` over `Option` maps each output element back to
some input element. -/
theorem mapM_option_mem {α β : Type} (f : α → Option β) :
    ∀ (l : List α) (out : List β), l.mapM f = some out →
      ∀ b ∈ out, ∃ a ∈ l, f a = some b := by
  intro l
  induction l with
  | nil =>
    intro out h b hb
    simp only [List.mapM_nil, Option.pure_def, Option.some.injEq] at h
    subst h
    simp at hb
  | cons a l ih =>
    intro out h b hb
    rw [List.mapM_cons] at h
    cases hfa : f a with
    | none => rw [hfa] at h; simp at h
    | some x =>
      rw [hfa] at h
      cases hml : l.mapM f with
      | none => rw [hml] at h; simp at h
      | some xs =>
        rw [hml] at h
        simp only [Option.pure_def, Option.bind_eq_bind, Option.some_bind,
          Option.some.injEq] at h
        subst h
        rcases List.mem_cons.mp hb with h1 | h1
        · exact ⟨a, List.mem_cons_self a l, h1 ▸ hfa⟩
        · obtain ⟨a2, ha2, hfa2⟩ := ih xs hml b h1
          exact ⟨a2, List.mem_cons_of_mem a ha2, hfa2⟩

/-- Insertion into the stable descending sort introduces no new elements. -/
theorem mem_sInsertDesc {α : Type} (key : α → ℝ) (x y : α) :
    ∀ l, y ∈ sInsertDesc key x l → y = x ∨ y ∈ l := by
  intro l
  induction l with
  | nil => intro h; simp [sInsertDesc] at h; exact Or.inl h
  | cons z l ih =>
    intro h
    unfold sInsertDesc at h
    split_ifs at h
    · rcases List.mem_cons.mp h with h1 | h1
      · exact Or.inr (h1 ▸ List.mem_cons_self z l)
      · rcases ih h1 with h2 | h2
        · exact Or.inl h2
        · exact Or.inr (List.mem_cons_of_mem z h2)
    · rcases List.mem_cons.mp h with h1 | h1
      · exact Or.inl h1
      · exact Or.inr h1

/-- The fold underlying `sortDesc` only permutes its inputs. -/
theorem mem_sortDesc_foldl {α : Type} (key : α → ℝ) :
    ∀ (l acc : List α) (y : α), y ∈ l.foldl (fun acc x => sInsertDesc key x acc) acc →
      y ∈ acc ∨ y ∈ l := by
  intro l
  induction l with
  | nil => intro acc y h; exact Or.inl h
  | cons x l ih =>
    intro acc y h
    rcases ih (sInsertDesc key x acc) y h with h1 | h1
    · rcases mem_sInsertDesc key x y acc h1 with h2 | h2
      · exact Or.inr (h2 ▸ List.mem_cons_self x l)
      · exact Or.inl h2
    · exact Or.inr (List.mem_cons_of_mem x h1)

/-- Every element of the sorted list comes from the unsorted list. -/
theorem mem_sortDesc {α : Type} (key : α → ℝ) (l : List α) (y : α)
    (h : y ∈ sortDesc key l) : y ∈ l := by
  unfold sortDesc at h
  rcases mem_sortDesc_foldl key l [] y h with h1 | h1
  · simp at h1
  · exact h1

/-- The payload of every pair produced by `List.enumFrom` is a list member. -/
theorem enumFrom_snd_mem {α : Type} :
    ∀ (l : List α) (n : ℕ) (p : ℕ × α), p ∈ l.enumFrom n → p.2 ∈ l := by
  intro l
  induction l with
  | nil => intro n p h; simp at h
  | cons a l ih =>
    intro n p h
    rcases List.mem_cons.mp h with h1 | h1
    · subst h1; exact List.mem_cons_self a l
    · exact List.mem_cons_of_mem a (ih (n + 1) p h1)

/-- `validCandidates` keeps only candidates whose trimmed content is
non-empty, mirroring the filter in `scoreCandidatesNode`. -/
theorem validCandidatesOf_content (urls contents : List String) :
    ∀ p ∈ validCandidatesOf urls contents, 0 < (jsTrim p.2.data).length := by
  intro p hp
  unfold validCandidatesOf at hp
  have := List.of_mem_filter hp
  simpa using this

/-- Every rejection emitted by the selection tail carries the
below-threshold reason. -/
theorem selectCandidates_rejected (threshold : ℝ) (maxC : ℕ)
    (scored : List (ℕ × CandidateItem ℝ)) :
    ∀ r ∈ (selectCandidates threshold maxC scored).rejected,
      r.reason = belowThresholdReason := by
  intro r hr
  unfold selectCandidates at hr
  simp only [List.mem_map] at hr
  obtain ⟨q, _, hq⟩ := hr
  rw [← hq]

/-- Every candidate kept by the selection tail was among the scored ones. -/
theorem selectCandidates_scored (threshold : ℝ) (maxC : ℕ)
    (scored : List (ℕ × CandidateItem ℝ)) :
    ∀ c ∈ (selectCandidates threshold maxC scored).scoredCandidates,
      ∃ q ∈ scored, q.2 = c := by
  intro c hc
  unfold selectCandidates at hc
  simp only [List.mem_map] at hc
  obtain ⟨q, hq, hqc⟩ := hc
  refine ⟨q, ?_, hqc⟩
  have h1 := List.mem_of_mem_take hq
  exact List.mem_of_mem_filter (mem_sortDesc (fun q => q.2.score) _ q h1)

/-- C3 (amended).  In `scoreCandidatesNode` the empty-content rejection fires
only in the branch where EVERY candidate has empty or whitespace-only
content: there the node returns no scored candidates and one
empty-content rejection per input URL.  Whenever at least one candidate
has non-empty content, the node never emits an empty-content rejection —
every rejection it produces carries the below-threshold reason — and the
empty-content candidates are silently dropped before scoring (so no scored
candidate has empty trimmed content).  The original claim, that an
empty-content candidate is always individually rejected with the
empty-content reason regardless of the other candidates, is refuted by
`scoreCandidates_empty_silent_cex`. -/
theorem scoreCandidates_empty_rejections (eT : String → List ℝ)
    (eB : List String → List (List ℝ)) (pc : String) (urls contents : List String)
    (thr : Option ℝ) (maxC : Option ℕ) :
    (validCandidatesOf urls contents = [] →
      scoreCandidatesNode eT eB pc urls contents thr maxC =
        some ⟨[], urls.map (fun url => ⟨url, emptyContentReason, none⟩)⟩) ∧
    (validCandidatesOf urls contents ≠ [] →
      ∀ res, scoreCandidatesNode eT eB pc urls contents thr maxC = some res →
        (∀ r ∈ res.rejected, r.reason = belowThresholdReason) ∧
        (∀ c ∈ res.scoredCandidates, 0 < (jsTrim c.content.data).length)) := by
  constructor
  · intro h
    unfold scoreCandidatesNode
    rw [if_pos (by simp [h])]
  · intro h res hres
    unfold scoreCandidatesNode at hres
    rw [if_neg (by simpa using h)] at hres
    cases hm : (validCandidatesOf urls contents).enum.mapM
        (scoreOf (eT pc) (eB ((validCandidatesOf urls contents).map (fun c => c.2)))) with
    | none => rw [hm] at hres; exact absurd hres (by simp)
    | some scored =>
      rw [hm] at hres
      simp only [Option.some.injEq] at hres
      subst hres
      refine ⟨selectCandidates_rejected _ _ _, ?_⟩
      intro c hc
      obtain ⟨q, hq2, hqc⟩ := selectCandidates_scored _ _ _ c hc
      obtain ⟨p, hp, hfp⟩ := mapM_option_mem _ _ scored hm q hq2
      have hpc : q.2.content = p.2.2 := by
        unfold scoreOf at hfp
        obtain ⟨s, _, hq⟩ := Option.map_eq_some'.mp hfp
        rw [← hq]
      have hval : p.2 ∈ validCandidatesOf urls contents := enumFrom_snd_mem _ 0 p hp
      have hlen := validCandidatesOf_content urls contents p.2 hval
      rw [← hqc, hpc]
      exact hlen

/-- C3 counterexample.  With two candidates, the first having empty content
and the second non-empty, `scoreCandidatesNode` (run with zero embeddings
and `maxCandidates = 0` so the scored candidate is also rejected) produces
a single rejection, for the non-empty candidate and with the
below-threshold reason: the empty-content candidate `u1` receives no
rejection at all, refuting the claim that empty-content candidates are
always rejected with the empty-content reason regardless of the others. -/
theorem scoreCandidates_empty_silent_cex :
    scoreCandidatesNode (fun _ => ([] : List ℝ)) (fun _ => ([] : List (List ℝ)))
      "p" ["u1", "u2"] ["", "x"] none (some 0) =
      some ⟨[], [⟨"u2", belowThresholdReason, some 0⟩]⟩ ∧
    (jsTrim "".data).length = 0 ∧
    belowThresholdReason ≠ emptyContentReason := by
  refine ⟨?_, by decide, by decide⟩
  have hv : validCandidatesOf ["u1", "u2"] ["", "x"] = [("u2", "x")] := by decide
  have h0 : sumSquares ([] : List ℝ) = 0 := by simp [sumSquares]
  have hcos : cosineSimilarity ([] : List ℝ) ([] : List ℝ) = some 0 := by
    unfold cosineSimilarity
    rw [if_neg (by simp), if_pos (Or.inl h0)]
  have hm : (([("u2", "x")] : List (String × String)).enum).mapM
      (scoreOf ([] : List ℝ) ([] : List (List ℝ))) =
      some [(0, (⟨"u2", "x", 0⟩ : CandidateItem ℝ))] := by
    rw [show (([("u2", "x")] : List (String × String)).enum) = [(0, ("u2", "x"))] from rfl]
    simp [List.mapM, List.mapM.loop, scoreOf, hcos]
  have hsel : selectCandidates ((none : Option ℝ).getD 0.2) ((some 0).getD 30)
      [(0, (⟨"u2", "x", 0⟩ : CandidateItem ℝ))] =
      ⟨[], [⟨"u2", belowThresholdReason, some 0⟩]⟩ := by
    unfold selectCandidates
    simp
  unfold scoreCandidatesNode
  rw [hv, if_neg (by simp)]
  dsimp only
  rw [hm]
  exact congrArg some hsel

/-- Witness for C3: a single candidate with empty content lands in the
all-empty branch and is rejected with the empty-content reason. -/
theorem scoreCandidates_empty_rejections_witness :
    scoreCandidatesNode (fun _ => ([] : List ℝ)) (fun _ => ([] : List (List ℝ)))
      "p" ["u1"] [""] none none =
      some ⟨[], [⟨"u1", emptyContentReason, none⟩]⟩ :=
  (scoreCandidates_empty_rejections (fun _ => ([] : List ℝ))
    (fun _ => ([] : List (List ℝ))) "p" ["u1"] [""] none none).1 (by decide)
